import Mathlib

/-!
Verification of the comment-removal scanners of `remove_comments.py`.

The development shallowly embeds the two lexical scanners of the source
(`remove_comments_from_shell` and `remove_comments_from_c_like`) together
with the privilege filter `should_preserve_comment`, working over
`List Char` (Python strings are sequences of characters).  Python's
`content.split('\n')`, `'\n'.join(...)`, `str.rstrip()` and `str.strip()`
are embedded as `pySplit`, `pyJoin`, `pyRstrip` and `pyStrip`.
-/

/-- The backquote character, ASCII 96 (Go raw string / JS template delimiter). -/
def backquote : Char := Char.ofNat 96

/-- Python `content.split('\n')`: splits into lines, keeping empty pieces;
`pySplit [] = [[]]`, exactly like `"".split('\n') == [""]`. -/
def pySplit : List Char → List (List Char)
  | [] => [[]]
  | c :: rest =>
    if c = '\n' then [] :: pySplit rest
    else
      match pySplit rest with
      | [] => [[c]]
      | l :: ls => (c :: l) :: ls

/-- Python `'\n'.join(lines)`. -/
def pyJoin : List (List Char) → List Char
  | [] => []
  | [l] => l
  | l :: ls => l ++ '\n' :: pyJoin ls

/-- Python `str.rstrip()`: remove trailing whitespace. -/
def pyRstrip : List Char → List Char
  | [] => []
  | c :: rest =>
    match pyRstrip rest with
    | [] => if c.isWhitespace then [] else [c]
    | r => c :: r

/-- Python `str.strip()`: remove leading and trailing whitespace. -/
def pyStrip (l : List Char) : List Char :=
  pyRstrip (l.dropWhile Char.isWhitespace)

/-- `CommentRemover.should_preserve_comment` (src lines 42-50): with
preservation on, a comment on line 0 whose stripped text starts with `#!`
is preserved; nothing else is. -/
def should_preserve_comment (preserve_shebang : Bool) (comment : List Char)
    (line_number : Nat) : Bool :=
  if preserve_shebang = false then false
  else if line_number = 0 ∧ List.isPrefixOf ['#', '!'] (pyStrip comment) then true
  else false

/-- Result of scanning one shell line: the kept characters, the number of
comments removed on the line, the final quote flags, and the quote flags
at each iteration of the character loop (instrumentation for the
mutual-exclusion invariant). -/
structure ShellLineResult where
  out : List Char
  removed : Nat
  sq : Bool
  dq : Bool
  trace : List (Bool × Bool)

/-- The character loop of `remove_comments_from_shell` (src lines 58-105)
on one line.  `prev` is the character at `j-1` (`none` at `j = 0`),
`sq`/`dq` are `in_single_quote`/`in_double_quote`.  Branches mirror the
Python exactly: `'` toggles single quotes outside double quotes; `"`
toggles double quotes outside single quotes, where closing requires
`j > 0 and line[j-1] != '\\'`; inside double quotes a backslash with a
following character copies both; inside any quote characters are copied;
an unquoted `#` either keeps the whole remainder (preserved comment) or
drops it and counts one removal; other characters are copied. -/
def shellLineGo (p : Bool) (i : Nat) :
    List Char → Option Char → Bool → Bool → ShellLineResult
  | [], _, sq, dq => ⟨[], 0, sq, dq, []⟩
  | ch :: rest, prev, sq, dq =>
    if ch = '\'' ∧ dq = false then
      let r := shellLineGo p i rest (some ch) (!sq) dq
      ⟨ch :: r.out, r.removed, r.sq, r.dq, (sq, dq) :: r.trace⟩
    else if ch = '"' ∧ sq = false then
      let r := shellLineGo p i rest (some ch) sq
        (if dq = false then true
         else if prev ≠ none ∧ prev ≠ some '\\' then false
         else dq)
      ⟨ch :: r.out, r.removed, r.sq, r.dq, (sq, dq) :: r.trace⟩
    else if dq = true ∧ ch = '\\' then
      match rest with
      | c2 :: rest2 =>
        let r := shellLineGo p i rest2 (some c2) sq dq
        ⟨ch :: c2 :: r.out, r.removed, r.sq, r.dq, (sq, dq) :: r.trace⟩
      | [] => ⟨[ch], 0, sq, dq, [(sq, dq)]⟩
    else if sq = true ∨ dq = true then
      let r := shellLineGo p i rest (some ch) sq dq
      ⟨ch :: r.out, r.removed, r.sq, r.dq, (sq, dq) :: r.trace⟩
    else if ch = '#' then
      if should_preserve_comment p (ch :: rest) i then
        ⟨ch :: rest, 0, sq, dq, [(sq, dq)]⟩
      else ⟨[], 1, sq, dq, [(sq, dq)]⟩
    else
      let r := shellLineGo p i rest (some ch) sq dq
      ⟨ch :: r.out, r.removed, r.sq, r.dq, (sq, dq) :: r.trace⟩

/-- Result of the shell scanner over all lines. -/
structure ShellResult where
  lines : List (List Char)
  removed : Nat
  trace : List (Bool × Bool)

/-- The per-line loop of `remove_comments_from_shell` (src lines 58-108):
each line is scanned from fresh quote state, then right-stripped. -/
def shellLinesGo (p : Bool) : Nat → List (List Char) → ShellResult
  | _, [] => ⟨[], 0, []⟩
  | i, l :: ls =>
    let r := shellLineGo p i l none false false
    let rec2 := shellLinesGo p (i + 1) ls
    ⟨pyRstrip r.out :: rec2.lines, r.removed + rec2.removed, r.trace ++ rec2.trace⟩

/-- `CommentRemover.remove_comments_from_shell` (src lines 52-110). -/
def remove_comments_from_shell (p : Bool) (content : List Char) : List Char × Nat :=
  let r := shellLinesGo p 0 (pySplit content)
  (pyJoin r.lines, r.removed)

/-- The five lexical-context flags of the C-family scanner
(src lines 125-129). -/
structure CState where
  inSingle : Bool
  inDouble : Bool
  inBacktick : Bool
  inLineComment : Bool
  inBlockComment : Bool
deriving DecidableEq, Fintype, Repr

/-- The all-false initial state of the C-family scanner. -/
def stInit : CState := ⟨false, false, false, false, false⟩

/-- The line-comment state. -/
def stLC : CState := ⟨false, false, false, true, false⟩

/-- The block-comment state. -/
def stBC : CState := ⟨false, false, false, false, true⟩

/-- The single-quote state. -/
def stSQ : CState := ⟨true, false, false, false, false⟩

/-- The double-quote state. -/
def stDQ : CState := ⟨false, true, false, false, false⟩

/-- The backtick state. -/
def stBT : CState := ⟨false, false, true, false, false⟩

/-- Result of the C-family scanner: kept characters, number of comment
openings removed, and the state at each iteration of the character loop
(instrumentation for the mutual-exclusion invariant). -/
structure CResult where
  out : List Char
  removed : Nat
  trace : List CState

/-- The character loop of `remove_comments_from_c_like` (src lines
131-214).  Each iteration consumes one character (or two, where the
Python advances `i` by 2) and mirrors the Python's branch order: line
comment, block comment, single quote, double quote, backtick, then the
normal mode with its comment openers and quote openers.  `nxt` checks of
the Python (`content[i+1] if i+1 < n else ''`) become matches on the
tail. -/
def cGo : CState → List Char → CResult
  | _, [] => ⟨[], 0, []⟩
  | s, [ch] =>
    if s.inLineComment then
      if ch = '\n' then ⟨[ch], 0, [s]⟩ else ⟨[], 0, [s]⟩
    else if s.inBlockComment then ⟨[], 0, [s]⟩
    else ⟨[ch], 0, [s]⟩
  | s, ch :: c2 :: rest2 =>
    if s.inLineComment then
      if ch = '\n' then
        let r := cGo { s with inLineComment := false } (c2 :: rest2)
        ⟨ch :: r.out, r.removed, s :: r.trace⟩
      else
        let r := cGo s (c2 :: rest2)
        ⟨r.out, r.removed, s :: r.trace⟩
    else if s.inBlockComment then
      if ch = '*' ∧ c2 = '/' then
        let r := cGo { s with inBlockComment := false } rest2
        ⟨r.out, r.removed, s :: r.trace⟩
      else
        let r := cGo s (c2 :: rest2)
        ⟨r.out, r.removed, s :: r.trace⟩
    else if s.inSingle then
      if ch = '\\' then
        let r := cGo s rest2
        ⟨ch :: c2 :: r.out, r.removed, s :: r.trace⟩
      else if ch = '\'' then
        let r := cGo { s with inSingle := false } (c2 :: rest2)
        ⟨ch :: r.out, r.removed, s :: r.trace⟩
      else
        let r := cGo s (c2 :: rest2)
        ⟨ch :: r.out, r.removed, s :: r.trace⟩
    else if s.inDouble then
      if ch = '\\' then
        let r := cGo s rest2
        ⟨ch :: c2 :: r.out, r.removed, s :: r.trace⟩
      else if ch = '"' then
        let r := cGo { s with inDouble := false } (c2 :: rest2)
        ⟨ch :: r.out, r.removed, s :: r.trace⟩
      else
        let r := cGo s (c2 :: rest2)
        ⟨ch :: r.out, r.removed, s :: r.trace⟩
    else if s.inBacktick then
      if ch = '\\' ∧ c2 = backquote then
        let r := cGo s rest2
        ⟨ch :: backquote :: r.out, r.removed, s :: r.trace⟩
      else if ch = backquote then
        let r := cGo { s with inBacktick := false } (c2 :: rest2)
        ⟨ch :: r.out, r.removed, s :: r.trace⟩
      else
        let r := cGo s (c2 :: rest2)
        ⟨ch :: r.out, r.removed, s :: r.trace⟩
    else
      if ch = '/' ∧ c2 = '/' then
        let r := cGo { s with inLineComment := true } rest2
        ⟨r.out, r.removed + 1, s :: r.trace⟩
      else if ch = '/' ∧ c2 = '*' then
        let r := cGo { s with inBlockComment := true } rest2
        ⟨r.out, r.removed + 1, s :: r.trace⟩
      else if ch = '\'' then
        let r := cGo { s with inSingle := true } (c2 :: rest2)
        ⟨ch :: r.out, r.removed, s :: r.trace⟩
      else if ch = '"' then
        let r := cGo { s with inDouble := true } (c2 :: rest2)
        ⟨ch :: r.out, r.removed, s :: r.trace⟩
      else if ch = backquote then
        let r := cGo { s with inBacktick := true } (c2 :: rest2)
        ⟨ch :: r.out, r.removed, s :: r.trace⟩
      else
        let r := cGo s (c2 :: rest2)
        ⟨ch :: r.out, r.removed, s :: r.trace⟩

/-- `CommentRemover.remove_comments_from_c_like` (src lines 112-215). -/
def remove_comments_from_c_like (content : List Char) : List Char × Nat :=
  let r := cGo stInit content
  (r.out, r.removed)

/-- The language families dispatched on in `process_file`
(src lines 229-232). -/
inductive LanguageFamily
  | shell
  | c_like
deriving DecidableEq

/-- The scanner entry point: dispatch by family, as in `process_file`.
The preservation flag is consulted only by the shell scanner, matching
the source (the C-family scanner never calls `should_preserve_comment`). -/
def scan (fam : LanguageFamily) (p : Bool) (content : List Char) : List Char × Nat :=
  match fam with
  | .shell => remove_comments_from_shell p content
  | .c_like => remove_comments_from_c_like content

/-- String-level wrapper of `scan`, for concrete test inputs. -/
def scanString (fam : LanguageFamily) (p : Bool) (s : String) : String × Nat :=
  let r := scan fam p s.toList
  (String.mk r.1, r.2)

/-- C1 counterexample: with preservation enabled, the C-family scanner
does NOT leave `//go:build linux` untouched: it removes the comment and
reports a nonzero count, because `remove_comments_from_c_like` never
consults `should_preserve_comment`. -/
theorem c1_counterexample :
    (scanString .c_like true "//go:build linux\npackage main").2 ≠ 0 := by decide

/-- C1 (amended): the C-family scanner preserves no comments at all,
whatever the preservation setting: on `//go:build linux\npackage main`
the build-tag comment is removed (the newline is kept, leaving an empty
first line) and `commentsRemoved == 1`. -/
theorem c1_amended : ∀ p : Bool,
    scanString .c_like p "//go:build linux\npackage main" = ("\npackage main", 1) := by
  intro p; cases p <;> decide

/-- C2 counterexample: the shell scanner trims trailing whitespace from
every line, including lines from which no comment was removed: the input
`echo hi ` (trailing blank, no comment anywhere) comes back altered even
though `commentsRemoved == 0`. -/
theorem c2_counterexample :
    scanString .shell true "echo hi " = ("echo hi", 0) ∧
    ("echo hi " : String) ≠ "echo hi" := by decide

/-- C3 counterexample: on `#!/bin/sh\n# regular comment\necho hi` the
shell scanner does not return `#!/bin/sh\necho hi`: the removed comment
line is kept as an empty line, not deleted. -/
theorem c3_counterexample :
    scanString .shell true "#!/bin/sh\n# regular comment\necho hi" ≠
      ("#!/bin/sh\necho hi", 1) := by decide

/-- C3 (amended): on `#!/bin/sh\n# regular comment\necho hi` with
preservation on, the shebang line is kept, the comment line becomes an
empty line, and `commentsRemoved == 1`: the result is
`#!/bin/sh\n\necho hi`. -/
theorem c3_amended :
    scanString .shell true "#!/bin/sh\n# regular comment\necho hi" =
      ("#!/bin/sh\n\necho hi", 1) := by decide

/-- C4 counterexample: after the even-length backslash run `\\` inside a
double-quoted shell string, the following `"` does NOT close the string
(the claim says an even run lets it close): the scanner is still in
double-quote mode at end of line, and consequently the later `#` in
`"\\" #x` is treated as string content, with no comment removed. -/
theorem c4_counterexample :
    (shellLineGo true 0 ('"' :: '\\' :: '\\' :: '"' :: []) none false false).dq = true ∧
    scanString .shell true "\"\\\\\" #x" = ("\"\\\\\" #x", 0) := by decide

/-- Inside a double-quoted shell string, a run of one or more backslashes
followed by `"` never closes the string: an odd run escapes the quote via
the byte-pair branch and an even run leaves a backslash at `j-1`, which
the one-character look-back treats as escaping. -/
theorem shellDqRun (p : Bool) (i : Nat) :
    ∀ (k : Nat) (prev : Option Char),
      (shellLineGo p i (List.replicate (k + 1) '\\' ++ ['"']) prev false true).dq = true
  | 0, _ => rfl
  | 1, _ => rfl
  | (k + 2), _ => shellDqRun p i k (some '\\')

/-- C4 (amended): a `"` scanned inside a double-quoted shell string closes
the string iff the number of immediately preceding backslashes is zero;
any nonzero run (odd via the escape-pair branch, even via the one-character
look-back `line[j-1] != '\\'`) suppresses the close. -/
theorem c4_amended : ∀ (p : Bool) (i k : Nat),
    (shellLineGo p i ('"' :: (List.replicate k '\\' ++ ['"'])) none false false).dq =
      decide (0 < k) := by
  intro p i k
  cases k with
  | zero => rfl
  | succ k =>
    have ih := shellDqRun p i k (some '"')
    simpa [shellLineGo] using ih

/-- Unfolding lemma for `pyRstrip` on a cons. -/
theorem pyRstrip_cons (c : Char) (l : List Char) :
    pyRstrip (c :: l) =
      if pyRstrip l = [] then (if c.isWhitespace then [] else [c])
      else c :: pyRstrip l := by
  cases hr : pyRstrip l with
  | nil => simp [pyRstrip, hr]
  | cons a t => simp [pyRstrip, hr]

/-- `pyRstrip` keeps a non-whitespace head. -/
theorem pyRstrip_cons_of_not_ws {c : Char} (h : c.isWhitespace = false) (l : List Char) :
    pyRstrip (c :: l) = c :: pyRstrip l := by
  rw [pyRstrip_cons]
  split
  · simp [h, *]
  · rfl

/-- `pyRstrip` is idempotent. -/
theorem pyRstrip_idem (l : List Char) : pyRstrip (pyRstrip l) = pyRstrip l := by
  induction l with
  | nil => rfl
  | cons c l ih =>
    rw [pyRstrip_cons]
    by_cases h0 : pyRstrip l = []
    · rw [if_pos h0]
      by_cases hw : c.isWhitespace
      · simp [pyRstrip, hw]
      · simp [pyRstrip, hw]
    · rw [if_neg h0, pyRstrip_cons, ih, if_neg h0]

/-- `pyRstrip` only drops characters. -/
theorem pyRstrip_sublist (l : List Char) : (pyRstrip l).Sublist l := by
  induction l with
  | nil => simp [pyRstrip]
  | cons c l ih =>
    rw [pyRstrip_cons]
    split
    · split
      · exact List.nil_sublist _
      · exact (List.singleton_sublist.mpr (List.mem_cons_self c l))
    · exact ih.cons₂ c

/-- A list ending in a non-whitespace character is unchanged by `pyRstrip`. -/
theorem pyRstrip_append_of_not_ws {c : Char} (h : c.isWhitespace = false) (l : List Char) :
    pyRstrip (l ++ [c]) = l ++ [c] := by
  induction l with
  | nil => simp [pyRstrip, h]
  | cons d l ih =>
    rw [List.cons_append, pyRstrip_cons, ih]
    simp

/-- `pySplit` never returns the empty list of lines. -/
theorem pySplit_ne_nil (l : List Char) : pySplit l ≠ [] := by
  cases l with
  | nil => simp [pySplit]
  | cons c rest =>
    simp only [pySplit]
    split
    · simp
    · split <;> simp

/-- No line produced by `pySplit` contains a newline. -/
theorem pySplit_no_newline (l : List Char) : ∀ x ∈ pySplit l, '\n' ∉ x := by
  induction l with
  | nil => intro x hx; simp [pySplit] at hx; simp [hx]
  | cons c rest ih =>
    intro x hx
    simp only [pySplit] at hx
    by_cases hc : c = '\n'
    · rw [if_pos hc] at hx
      rcases List.mem_cons.mp hx with rfl | hx
      · simp
      · exact ih x hx
    · rw [if_neg hc] at hx
      cases hr : pySplit rest with
      | nil => exact absurd hr (pySplit_ne_nil rest)
      | cons y ys =>
        rw [hr] at hx
        rcases List.mem_cons.mp hx with rfl | hx
        · have hy : '\n' ∉ y := ih y (by rw [hr]; exact List.mem_cons_self y ys)
          intro hmem
          rcases List.mem_cons.mp hmem with hh | hh
          · exact hc hh.symm
          · exact hy hh
        · exact ih x (by rw [hr]; exact List.mem_cons_of_mem y hx)

/-- `pySplit` produces one more line than there are newlines. -/
theorem pySplit_length (l : List Char) :
    (pySplit l).length = l.count '\n' + 1 := by
  induction l with
  | nil => simp [pySplit]
  | cons c rest ih =>
    simp only [pySplit]
    by_cases hc : c = '\n'
    · rw [if_pos hc]
      simp [hc, List.count_cons, ih]
    · rw [if_neg hc]
      cases hr : pySplit rest with
      | nil => exact absurd hr (pySplit_ne_nil rest)
      | cons y ys =>
        rw [hr] at ih
        simp only [List.length_cons] at ih
        simp [List.count_cons, hc]
        omega

/-- Splitting after joining a newline-free line back on. -/
theorem pySplit_append_newline {x : List Char} (h : '\n' ∉ x) (r : List Char) :
    pySplit (x ++ '\n' :: r) = x :: pySplit r := by
  induction x with
  | nil => simp [pySplit]
  | cons c xs ih =>
    have hc : c ≠ '\n' := by intro hc; exact h (hc ▸ List.mem_cons_self c xs)
    have hxs : '\n' ∉ xs := fun hm => h (List.mem_cons_of_mem c hm)
    simp only [List.cons_append, pySplit, if_neg hc, List.append_eq, ih hxs]

/-- A newline-free text is a single line. -/
theorem pySplit_of_no_newline {x : List Char} (h : '\n' ∉ x) : pySplit x = [x] := by
  induction x with
  | nil => rfl
  | cons c xs ih =>
    have hc : c ≠ '\n' := by intro hc; exact h (hc ▸ List.mem_cons_self c xs)
    have hxs : '\n' ∉ xs := fun hm => h (List.mem_cons_of_mem c hm)
    simp only [pySplit, if_neg hc, ih hxs]

/-- `pySplit` undoes `pyJoin` on nonempty lists of newline-free lines. -/
theorem pySplit_pyJoin : ∀ (L : List (List Char)), (∀ x ∈ L, '\n' ∉ x) → L ≠ [] →
    pySplit (pyJoin L) = L
  | [], _, hne => absurd rfl hne
  | [x], h, _ => by
    simpa [pyJoin] using pySplit_of_no_newline (h x (by simp))
  | x :: y :: ls, h, _ => by
    have hx : '\n' ∉ x := h x (by simp)
    have ih := pySplit_pyJoin (y :: ls) (fun z hz => h z (List.mem_cons_of_mem x hz))
      (by simp)
    simp only [pyJoin]
    rw [pySplit_append_newline hx, ih]

/-- Newline count of a joined list of newline-free lines. -/
theorem pyJoin_count : ∀ (L : List (List Char)), (∀ x ∈ L, '\n' ∉ x) →
    (pyJoin L).count '\n' = L.length - 1
  | [], _ => by simp [pyJoin]
  | [x], h => by
    have hx : '\n' ∉ x := h x (by simp)
    simp [pyJoin, List.count_eq_zero.mpr hx]
  | x :: y :: ls, h => by
    have hx : '\n' ∉ x := h x (by simp)
    have ih := pyJoin_count (y :: ls) (fun z hz => h z (List.mem_cons_of_mem x hz))
    simp only [pyJoin]
    rw [List.count_append, List.count_cons_self, List.count_eq_zero.mpr hx]
    simp only [List.length_cons] at *
    omega

/-- The C-family scanner only drops characters: its output is a sublist
of its input. -/
theorem cGo_out_sublist : ∀ (s : CState) (l : List Char), (cGo s l).out.Sublist l := by
  intro s l
  induction s, l using cGo.induct with
  | case1 s => exact List.nil_sublist _
  | case2 s h => simp [cGo, h]
  | case3 s ch h hch => simp only [cGo, if_pos h, if_neg hch]; exact List.nil_sublist _
  | case4 s ch hlc hbc => simp only [cGo, if_neg hlc, if_pos hbc]; exact List.nil_sublist _
  | case5 s ch hlc hbc =>
    simp only [cGo, if_neg hlc, if_neg hbc]
    exact List.Sublist.refl _
  | case6 s c2 rest2 h ih =>
    simp only [cGo, if_pos h, if_pos rfl, if_true]
    exact ih.cons₂ '\n'
  | case7 s ch c2 rest2 h hch ih =>
    simp only [cGo, if_pos h, if_neg hch]
    exact ih.cons ch
  | case8 s ch c2 rest2 hlc hbc h ih =>
    simp only [cGo, if_neg hlc, if_pos hbc, if_pos h]
    exact (ih.cons c2).cons ch
  | case9 s ch c2 rest2 hlc hbc h ih =>
    simp only [cGo, if_neg hlc, if_pos hbc, if_neg h]
    exact ih.cons ch
  | case10 s c2 rest2 hlc hbc hsq ih =>
    simp only [cGo, if_neg hlc, if_neg hbc, if_pos hsq, if_pos rfl, if_true]
    exact (ih.cons₂ c2).cons₂ '\\'
  | case11 s c2 rest2 hlc hbc hsq h ih =>
    simp only [cGo, if_neg hlc, if_neg hbc, if_pos hsq, if_neg h, if_pos rfl, if_true]
    exact ih.cons₂ '\''
  | case12 s ch c2 rest2 hlc hbc hsq h1 h2 ih =>
    simp only [cGo, if_neg hlc, if_neg hbc, if_pos hsq, if_neg h1, if_neg h2]
    exact ih.cons₂ ch
  | case13 s c2 rest2 hlc hbc hsq hdq ih =>
    simp only [cGo, if_neg hlc, if_neg hbc, if_neg hsq, if_pos hdq, if_pos rfl, if_true]
    exact (ih.cons₂ c2).cons₂ '\\'
  | case14 s c2 rest2 hlc hbc hsq hdq h ih =>
    simp only [cGo, if_neg hlc, if_neg hbc, if_neg hsq, if_pos hdq, if_neg h, if_pos rfl, if_true]
    exact ih.cons₂ '"'
  | case15 s ch c2 rest2 hlc hbc hsq hdq h1 h2 ih =>
    simp only [cGo, if_neg hlc, if_neg hbc, if_neg hsq, if_pos hdq, if_neg h1, if_neg h2]
    exact ih.cons₂ ch
  | case16 s ch c2 rest2 hlc hbc hsq hdq hbt h ih =>
    simp only [cGo, if_neg hlc, if_neg hbc, if_neg hsq, if_neg hdq, if_pos hbt, if_pos h]
    obtain ⟨rfl, rfl⟩ := h
    exact (ih.cons₂ backquote).cons₂ '\\'
  | case17 s c2 rest2 hlc hbc hsq hdq hbt h ih =>
    simp only [cGo, if_neg hlc, if_neg hbc, if_neg hsq, if_neg hdq, if_pos hbt, if_neg h,
      if_pos rfl, if_true]
    exact ih.cons₂ backquote
  | case18 s ch c2 rest2 hlc hbc hsq hdq hbt h1 h2 ih =>
    simp only [cGo, if_neg hlc, if_neg hbc, if_neg hsq, if_neg hdq, if_pos hbt, if_neg h1,
      if_neg h2]
    exact ih.cons₂ ch
  | case19 s ch c2 rest2 hlc hbc hsq hdq hbt h ih =>
    simp only [cGo, if_neg hlc, if_neg hbc, if_neg hsq, if_neg hdq, if_neg hbt, if_pos h]
    exact (ih.cons c2).cons ch
  | case20 s ch c2 rest2 hlc hbc hsq hdq hbt h1 h2 ih =>
    simp only [cGo, if_neg hlc, if_neg hbc, if_neg hsq, if_neg hdq, if_neg hbt, if_neg h1,
      if_pos h2]
    exact (ih.cons c2).cons ch
  | case21 s c2 rest2 hlc hbc hsq hdq hbt h1 h2 ih =>
    simp only [cGo, if_neg hlc, if_neg hbc, if_neg hsq, if_neg hdq, if_neg hbt, if_neg h1,
      if_neg h2, if_pos rfl, if_true]
    exact ih.cons₂ '\''
  | case22 s c2 rest2 hlc hbc hsq hdq hbt h1 h2 h3 ih =>
    simp only [cGo, if_neg hlc, if_neg hbc, if_neg hsq, if_neg hdq, if_neg hbt, if_neg h1,
      if_neg h2, if_neg h3, if_pos rfl, if_true]
    exact ih.cons₂ '"'
  | case23 s c2 rest2 hlc hbc hsq hdq hbt h1 h2 h3 h4 ih =>
    simp only [cGo, if_neg hlc, if_neg hbc, if_neg hsq, if_neg hdq, if_neg hbt, if_neg h1,
      if_neg h2, if_neg h3, if_neg h4, if_pos rfl, if_true]
    exact ih.cons₂ backquote
  | case24 s ch c2 rest2 hlc hbc hsq hdq hbt h1 h2 h3 h4 h5 ih =>
    simp only [cGo, if_neg hlc, if_neg hbc, if_neg hsq, if_neg hdq, if_neg hbt, if_neg h1,
      if_neg h2, if_neg h3, if_neg h4, if_neg h5]
    exact ih.cons₂ ch

/-- The shell line scanner's kept characters form a prefix of the line:
either the whole line (no comment, or a preserved comment) or everything
before the comment marker. -/
theorem shellLineGo_out_take (p : Bool) (i : Nat) :
    ∀ (l : List Char) (prev : Option Char) (sq dq : Bool),
      ∃ k, (shellLineGo p i l prev sq dq).out = l.take k := by
  intro l prev sq dq
  induction l, prev, sq, dq using shellLineGo.induct p i with
  | case1 prev sq dq => exact ⟨0, rfl⟩
  | case2 ch rest prev sq dq h ih =>
    obtain ⟨k, hk⟩ := ih
    refine ⟨k + 1, ?_⟩
    rw [shellLineGo.eq_def]
    simp only [if_pos h, List.take_succ_cons, hk]
  | case3 ch rest prev sq dq h1 h2 ih =>
    obtain ⟨k, hk⟩ := ih
    refine ⟨k + 1, ?_⟩
    rw [shellLineGo.eq_def]
    simp only [if_neg h1, if_pos h2, List.take_succ_cons, hk]
  | case4 ch prev sq dq h1 h2 h3 c2 rest2 ih =>
    obtain ⟨k, hk⟩ := ih
    refine ⟨k + 2, ?_⟩
    rw [shellLineGo.eq_def]
    simp only [if_neg h1, if_neg h2, if_pos h3, List.take_succ_cons, hk]
  | case5 ch prev sq dq h1 h2 h3 =>
    refine ⟨1, ?_⟩
    rw [shellLineGo.eq_def]
    simp only [if_neg h1, if_neg h2, if_pos h3, List.take_succ_cons, List.take_nil]
  | case6 ch rest prev sq dq h1 h2 h3 h4 ih =>
    obtain ⟨k, hk⟩ := ih
    refine ⟨k + 1, ?_⟩
    rw [shellLineGo.eq_def]
    simp only [if_neg h1, if_neg h2, if_neg h3, if_pos h4, List.take_succ_cons, hk]
  | case7 rest prev sq dq h4 h1 h2 h3 h5 =>
    refine ⟨rest.length + 1, ?_⟩
    rw [shellLineGo.eq_def]
    simp only [if_neg h1, if_neg h2, if_neg h3, if_neg h4, if_pos rfl, if_true, if_pos h5,
      List.take_succ_cons]
    rw [List.take_of_length_le (le_refl _)]
  | case8 rest prev sq dq h4 h1 h2 h3 h5 =>
    refine ⟨0, ?_⟩
    rw [shellLineGo.eq_def]
    simp only [if_neg h1, if_neg h2, if_neg h3, if_neg h4, if_pos rfl, if_true, if_neg h5,
      List.take_zero]
  | case9 ch rest prev sq dq h1 h2 h3 h4 h5 ih =>
    obtain ⟨k, hk⟩ := ih
    refine ⟨k + 1, ?_⟩
    rw [shellLineGo.eq_def]
    simp only [if_neg h1, if_neg h2, if_neg h3, if_neg h4, if_neg h5,
      List.take_succ_cons, hk]

/-- Each cleaned shell line is the right-stripped version of a prefix of
the corresponding input line. -/
theorem shellLinesGo_forall2 (p : Bool) :
    ∀ (L : List (List Char)) (i : Nat),
      List.Forall₂ (fun lin lout => ∃ k, lout = pyRstrip (lin.take k))
        L (shellLinesGo p i L).lines := by
  intro L
  induction L with
  | nil => intro i; exact List.Forall₂.nil
  | cons l ls ih =>
    intro i
    simp only [shellLinesGo]
    refine List.Forall₂.cons ?_ (ih (i + 1))
    obtain ⟨k, hk⟩ := shellLineGo_out_take p i l none false false
    exact ⟨k, by rw [hk]⟩

/-- C2 (amended): the C-family cleaned text is obtained from the input by
deletions only (the dropped comment bytes); the shell cleaned text is the
per-line join where every output line is the trailing-whitespace-trimmed
version of a prefix of its input line — the trimming applies to every
line, not only to lines from which a comment was removed. -/
theorem c2_amended : ∀ (p : Bool) (content : List Char),
    ((scan .c_like p content).1).Sublist content ∧
    (scan .shell p content).1 = pyJoin ((shellLinesGo p 0 (pySplit content)).lines) ∧
    List.Forall₂ (fun lin lout => ∃ k, lout = pyRstrip (lin.take k))
      (pySplit content) ((shellLinesGo p 0 (pySplit content)).lines) := by
  intro p content
  exact ⟨cGo_out_sublist stInit content, rfl, shellLinesGo_forall2 p (pySplit content) 0⟩

/-- The shell scanner keeps the number of lines. -/
theorem shellLinesGo_length (p : Bool) :
    ∀ (L : List (List Char)) (i : Nat), (shellLinesGo p i L).lines.length = L.length := by
  intro L
  induction L with
  | nil => intro i; rfl
  | cons l ls ih => intro i; simp only [shellLinesGo, List.length_cons, ih]

/-- Cleaned shell lines contain no newline when the input lines do not. -/
theorem shellLinesGo_no_newline (p : Bool) :
    ∀ (L : List (List Char)), (∀ x ∈ L, '\n' ∉ x) →
      ∀ (i : Nat), ∀ y ∈ (shellLinesGo p i L).lines, '\n' ∉ y := by
  intro L
  induction L with
  | nil => intro _ i y hy; simp [shellLinesGo] at hy
  | cons l ls ih =>
    intro h i y hy
    simp only [shellLinesGo] at hy
    rcases List.mem_cons.mp hy with rfl | hy
    · obtain ⟨k, hk⟩ := shellLineGo_out_take p i l none false false
      intro hmem
      have h1 : '\n' ∈ (shellLineGo p i l none false false).out :=
        (pyRstrip_sublist _).subset hmem
      rw [hk] at h1
      exact h l (List.mem_cons_self l ls) (List.take_subset k l h1)
    · exact ih (fun x hx => h x (List.mem_cons_of_mem l hx)) (i + 1) y hy

/-- C10: the shell scanner's cleaned text has exactly as many newline
characters as the input: a fully removed comment line becomes an empty
line rather than disappearing, so the line count is preserved. -/
theorem c10_newline_count : ∀ (p : Bool) (content : List Char),
    ((remove_comments_from_shell p content).1).count '\n' = content.count '\n' := by
  intro p content
  have hnl := shellLinesGo_no_newline p (pySplit content) (pySplit_no_newline content) 0
  have hlen := shellLinesGo_length p (pySplit content) 0
  have hcount := pyJoin_count ((shellLinesGo p 0 (pySplit content)).lines) hnl
  show (pyJoin ((shellLinesGo p 0 (pySplit content)).lines)).count '\n' = _
  rw [hcount, hlen, pySplit_length]
  omega

/-- When the C-family scanner removes no comment it copies every
character: starting outside any comment, `removed = 0` forces the output
to equal the input. -/
theorem cGo_removed_zero : ∀ (s : CState) (l : List Char),
    s.inLineComment = false → s.inBlockComment = false →
    (cGo s l).removed = 0 → (cGo s l).out = l := by
  intro s l
  induction s, l using cGo.induct with
  | case1 s => intro _ _ _; rfl
  | case2 s h => intro hlc _ _; simp [hlc] at h
  | case3 s ch h hch => intro hlc _ _; simp [hlc] at h
  | case4 s ch hlc' hbc' => intro _ hbc _; simp [hbc] at hbc'
  | case5 s ch hlc' hbc' =>
    intro _ _ _
    simp only [cGo, if_neg hlc', if_neg hbc']
  | case6 s c2 rest2 h ih => intro hlc _ _; simp [hlc] at h
  | case7 s ch c2 rest2 h hch ih => intro hlc _ _; simp [hlc] at h
  | case8 s ch c2 rest2 hlc' hbc' h ih => intro _ hbc _; simp [hbc] at hbc'
  | case9 s ch c2 rest2 hlc' hbc' h ih => intro _ hbc _; simp [hbc] at hbc'
  | case10 s c2 rest2 hlc' hbc' hsq ih =>
    intro hlc hbc h0
    simp only [cGo, if_neg hlc', if_neg hbc', if_pos hsq, if_pos rfl, if_true] at h0 ⊢
    rw [ih hlc hbc h0]
  | case11 s c2 rest2 hlc' hbc' hsq h ih =>
    intro hlc hbc h0
    simp only [cGo, if_neg hlc', if_neg hbc', if_pos hsq, if_neg h, if_pos rfl, if_true] at h0 ⊢
    rw [ih hlc hbc h0]
  | case12 s ch c2 rest2 hlc' hbc' hsq h1 h2 ih =>
    intro hlc hbc h0
    simp only [cGo, if_neg hlc', if_neg hbc', if_pos hsq, if_neg h1, if_neg h2] at h0 ⊢
    rw [ih hlc hbc h0]
  | case13 s c2 rest2 hlc' hbc' hsq hdq ih =>
    intro hlc hbc h0
    simp only [cGo, if_neg hlc', if_neg hbc', if_neg hsq, if_pos hdq, if_pos rfl, if_true] at h0 ⊢
    rw [ih hlc hbc h0]
  | case14 s c2 rest2 hlc' hbc' hsq hdq h ih =>
    intro hlc hbc h0
    simp only [cGo, if_neg hlc', if_neg hbc', if_neg hsq, if_pos hdq, if_neg h,
      if_pos rfl, if_true] at h0 ⊢
    rw [ih hlc hbc h0]
  | case15 s ch c2 rest2 hlc' hbc' hsq hdq h1 h2 ih =>
    intro hlc hbc h0
    simp only [cGo, if_neg hlc', if_neg hbc', if_neg hsq, if_pos hdq, if_neg h1,
      if_neg h2] at h0 ⊢
    rw [ih hlc hbc h0]
  | case16 s ch c2 rest2 hlc' hbc' hsq hdq hbt h ih =>
    intro hlc hbc h0
    simp only [cGo, if_neg hlc', if_neg hbc', if_neg hsq, if_neg hdq, if_pos hbt,
      if_pos h] at h0 ⊢
    obtain ⟨rfl, rfl⟩ := h
    rw [ih hlc hbc h0]
  | case17 s c2 rest2 hlc' hbc' hsq hdq hbt h ih =>
    intro hlc hbc h0
    simp only [cGo, if_neg hlc', if_neg hbc', if_neg hsq, if_neg hdq, if_pos hbt, if_neg h,
      if_pos rfl, if_true] at h0 ⊢
    rw [ih hlc hbc h0]
  | case18 s ch c2 rest2 hlc' hbc' hsq hdq hbt h1 h2 ih =>
    intro hlc hbc h0
    simp only [cGo, if_neg hlc', if_neg hbc', if_neg hsq, if_neg hdq, if_pos hbt, if_neg h1,
      if_neg h2] at h0 ⊢
    rw [ih hlc hbc h0]
  | case19 s ch c2 rest2 hlc' hbc' hsq hdq hbt h ih =>
    intro _ _ h0
    simp only [cGo, if_neg hlc', if_neg hbc', if_neg hsq, if_neg hdq, if_neg hbt,
      if_pos h] at h0
    exact absurd h0 (Nat.succ_ne_zero _)
  | case20 s ch c2 rest2 hlc' hbc' hsq hdq hbt h1 h2 ih =>
    intro _ _ h0
    simp only [cGo, if_neg hlc', if_neg hbc', if_neg hsq, if_neg hdq, if_neg hbt, if_neg h1,
      if_pos h2] at h0
    exact absurd h0 (Nat.succ_ne_zero _)
  | case21 s c2 rest2 hlc' hbc' hsq hdq hbt h1 h2 ih =>
    intro hlc hbc h0
    simp only [cGo, if_neg hlc', if_neg hbc', if_neg hsq, if_neg hdq, if_neg hbt, if_neg h1,
      if_neg h2, if_pos rfl, if_true] at h0 ⊢
    rw [ih hlc hbc h0]
  | case22 s c2 rest2 hlc' hbc' hsq hdq hbt h1 h2 h3 ih =>
    intro hlc hbc h0
    simp only [cGo, if_neg hlc', if_neg hbc', if_neg hsq, if_neg hdq, if_neg hbt, if_neg h1,
      if_neg h2, if_neg h3, if_pos rfl, if_true] at h0 ⊢
    rw [ih hlc hbc h0]
  | case23 s c2 rest2 hlc' hbc' hsq hdq hbt h1 h2 h3 h4 ih =>
    intro hlc hbc h0
    simp only [cGo, if_neg hlc', if_neg hbc', if_neg hsq, if_neg hdq, if_neg hbt, if_neg h1,
      if_neg h2, if_neg h3, if_neg h4, if_pos rfl, if_true] at h0 ⊢
    rw [ih hlc hbc h0]
  | case24 s ch c2 rest2 hlc' hbc' hsq hdq hbt h1 h2 h3 h4 h5 ih =>
    intro hlc hbc h0
    simp only [cGo, if_neg hlc', if_neg hbc', if_neg hsq, if_neg hdq, if_neg hbt, if_neg h1,
      if_neg h2, if_neg h3, if_neg h4, if_neg h5] at h0 ⊢
    rw [ih hlc hbc h0]

/-- A removal strictly shortens the C-family output. -/
theorem cGo_removed_pos : ∀ (s : CState) (l : List Char),
    (cGo s l).removed ≠ 0 → (cGo s l).out.length < l.length := by
  intro s l
  induction s, l using cGo.induct with
  | case1 s => intro h0; exact absurd rfl h0
  | case2 s h => intro h0; simp [cGo, h] at h0
  | case3 s ch h hch => intro h0; simp only [cGo, if_pos h, if_neg hch] at h0; simp at h0
  | case4 s ch hlc hbc => intro h0; simp only [cGo, if_neg hlc, if_pos hbc] at h0; simp at h0
  | case5 s ch hlc hbc => intro h0; simp only [cGo, if_neg hlc, if_neg hbc] at h0; simp at h0
  | case6 s c2 rest2 h ih =>
    intro h0
    simp only [cGo, if_pos h, if_pos rfl, if_true] at h0 ⊢
    have := ih h0
    simp only [List.length_cons] at this ⊢
    omega
  | case7 s ch c2 rest2 h hch ih =>
    intro h0
    simp only [cGo, if_pos h, if_neg hch] at h0 ⊢
    have := ih h0
    simp only [List.length_cons] at this ⊢
    omega
  | case8 s ch c2 rest2 hlc hbc h ih =>
    intro h0
    simp only [cGo, if_neg hlc, if_pos hbc, if_pos h] at h0 ⊢
    have := ih h0
    simp only [List.length_cons] at this ⊢
    omega
  | case9 s ch c2 rest2 hlc hbc h ih =>
    intro h0
    simp only [cGo, if_neg hlc, if_pos hbc, if_neg h] at h0 ⊢
    have := ih h0
    simp only [List.length_cons] at this ⊢
    omega
  | case10 s c2 rest2 hlc hbc hsq ih =>
    intro h0
    simp only [cGo, if_neg hlc, if_neg hbc, if_pos hsq, if_pos rfl, if_true] at h0 ⊢
    have := ih h0
    simp only [List.length_cons] at this ⊢
    omega
  | case11 s c2 rest2 hlc hbc hsq h ih =>
    intro h0
    simp only [cGo, if_neg hlc, if_neg hbc, if_pos hsq, if_neg h, if_pos rfl, if_true] at h0 ⊢
    have := ih h0
    simp only [List.length_cons] at this ⊢
    omega
  | case12 s ch c2 rest2 hlc hbc hsq h1 h2 ih =>
    intro h0
    simp only [cGo, if_neg hlc, if_neg hbc, if_pos hsq, if_neg h1, if_neg h2] at h0 ⊢
    have := ih h0
    simp only [List.length_cons] at this ⊢
    omega
  | case13 s c2 rest2 hlc hbc hsq hdq ih =>
    intro h0
    simp only [cGo, if_neg hlc, if_neg hbc, if_neg hsq, if_pos hdq, if_pos rfl, if_true] at h0 ⊢
    have := ih h0
    simp only [List.length_cons] at this ⊢
    omega
  | case14 s c2 rest2 hlc hbc hsq hdq h ih =>
    intro h0
    simp only [cGo, if_neg hlc, if_neg hbc, if_neg hsq, if_pos hdq, if_neg h,
      if_pos rfl, if_true] at h0 ⊢
    have := ih h0
    simp only [List.length_cons] at this ⊢
    omega
  | case15 s ch c2 rest2 hlc hbc hsq hdq h1 h2 ih =>
    intro h0
    simp only [cGo, if_neg hlc, if_neg hbc, if_neg hsq, if_pos hdq, if_neg h1,
      if_neg h2] at h0 ⊢
    have := ih h0
    simp only [List.length_cons] at this ⊢
    omega
  | case16 s ch c2 rest2 hlc hbc hsq hdq hbt h ih =>
    intro h0
    simp only [cGo, if_neg hlc, if_neg hbc, if_neg hsq, if_neg hdq, if_pos hbt,
      if_pos h] at h0 ⊢
    have := ih h0
    simp only [List.length_cons] at this ⊢
    omega
  | case17 s c2 rest2 hlc hbc hsq hdq hbt h ih =>
    intro h0
    simp only [cGo, if_neg hlc, if_neg hbc, if_neg hsq, if_neg hdq, if_pos hbt, if_neg h,
      if_pos rfl, if_true] at h0 ⊢
    have := ih h0
    simp only [List.length_cons] at this ⊢
    omega
  | case18 s ch c2 rest2 hlc hbc hsq hdq hbt h1 h2 ih =>
    intro h0
    simp only [cGo, if_neg hlc, if_neg hbc, if_neg hsq, if_neg hdq, if_pos hbt, if_neg h1,
      if_neg h2] at h0 ⊢
    have := ih h0
    simp only [List.length_cons] at this ⊢
    omega
  | case19 s ch c2 rest2 hlc hbc hsq hdq hbt h ih =>
    intro _
    simp only [cGo, if_neg hlc, if_neg hbc, if_neg hsq, if_neg hdq, if_neg hbt, if_pos h]
    have := (cGo_out_sublist { s with inLineComment := true } rest2).length_le
    simp only [List.length_cons]
    omega
  | case20 s ch c2 rest2 hlc hbc hsq hdq hbt h1 h2 ih =>
    intro _
    simp only [cGo, if_neg hlc, if_neg hbc, if_neg hsq, if_neg hdq, if_neg hbt, if_neg h1,
      if_pos h2]
    have := (cGo_out_sublist { s with inBlockComment := true } rest2).length_le
    simp only [List.length_cons]
    omega
  | case21 s c2 rest2 hlc hbc hsq hdq hbt h1 h2 ih =>
    intro h0
    simp only [cGo, if_neg hlc, if_neg hbc, if_neg hsq, if_neg hdq, if_neg hbt, if_neg h1,
      if_neg h2, if_pos rfl, if_true] at h0 ⊢
    have := ih h0
    simp only [List.length_cons] at this ⊢
    omega
  | case22 s c2 rest2 hlc hbc hsq hdq hbt h1 h2 h3 ih =>
    intro h0
    simp only [cGo, if_neg hlc, if_neg hbc, if_neg hsq, if_neg hdq, if_neg hbt, if_neg h1,
      if_neg h2, if_neg h3, if_pos rfl, if_true] at h0 ⊢
    have := ih h0
    simp only [List.length_cons] at this ⊢
    omega
  | case23 s c2 rest2 hlc hbc hsq hdq hbt h1 h2 h3 h4 ih =>
    intro h0
    simp only [cGo, if_neg hlc, if_neg hbc, if_neg hsq, if_neg hdq, if_neg hbt, if_neg h1,
      if_neg h2, if_neg h3, if_neg h4, if_pos rfl, if_true] at h0 ⊢
    have := ih h0
    simp only [List.length_cons] at this ⊢
    omega
  | case24 s ch c2 rest2 hlc hbc hsq hdq hbt h1 h2 h3 h4 h5 ih =>
    intro h0
    simp only [cGo, if_neg hlc, if_neg hbc, if_neg hsq, if_neg hdq, if_neg hbt, if_neg h1,
      if_neg h2, if_neg h3, if_neg h4, if_neg h5] at h0 ⊢
    have := ih h0
    simp only [List.length_cons] at this ⊢
    omega

/-- C9: for the C-family scanner, `commentsRemoved == 0` iff the cleaned
text equals the input byte for byte: characters are dropped only inside
comment modes and entering a comment mode always increments the
counter. -/
theorem c9_removed_zero_iff_unchanged : ∀ (content : List Char),
    (remove_comments_from_c_like content).2 = 0 ↔
      (remove_comments_from_c_like content).1 = content := by
  intro content
  constructor
  · intro h0
    exact cGo_removed_zero stInit content rfl rfl h0
  · intro hout
    by_contra hne
    have h2 : (cGo stInit content).out = content := hout
    have h3 := cGo_removed_pos stInit content hne
    rw [h2] at h3
    exact lt_irrefl _ h3

/-- Number of active lexical-context flags of a C-family scan state. -/
def flagCount (s : CState) : Nat :=
  (if s.inSingle then 1 else 0) + (if s.inDouble then 1 else 0) +
    (if s.inBacktick then 1 else 0) + (if s.inLineComment then 1 else 0) +
    (if s.inBlockComment then 1 else 0)

/-- Mutual exclusion of lexical contexts: at most one flag is active. -/
def mutexB (s : CState) : Bool := decide (flagCount s ≤ 1)

/-- Clearing the line-comment flag preserves mutual exclusion. -/
theorem mutex_clear_lc : ∀ s : CState, mutexB s = true →
    mutexB { s with inLineComment := false } = true := by decide

/-- Clearing the block-comment flag preserves mutual exclusion. -/
theorem mutex_clear_bc : ∀ s : CState, mutexB s = true →
    mutexB { s with inBlockComment := false } = true := by decide

/-- Clearing the single-quote flag preserves mutual exclusion. -/
theorem mutex_clear_sq : ∀ s : CState, mutexB s = true →
    mutexB { s with inSingle := false } = true := by decide

/-- Clearing the double-quote flag preserves mutual exclusion. -/
theorem mutex_clear_dq : ∀ s : CState, mutexB s = true →
    mutexB { s with inDouble := false } = true := by decide

/-- Clearing the backtick flag preserves mutual exclusion. -/
theorem mutex_clear_bt : ∀ s : CState, mutexB s = true →
    mutexB { s with inBacktick := false } = true := by decide

/-- Opening a line comment from the normal mode yields a mutex state. -/
theorem mutex_open_lc : ∀ s : CState, ¬s.inBlockComment = true → ¬s.inSingle = true →
    ¬s.inDouble = true → ¬s.inBacktick = true →
    mutexB { s with inLineComment := true } = true := by decide

/-- Opening a block comment from the normal mode yields a mutex state. -/
theorem mutex_open_bc : ∀ s : CState, ¬s.inLineComment = true → ¬s.inSingle = true →
    ¬s.inDouble = true → ¬s.inBacktick = true →
    mutexB { s with inBlockComment := true } = true := by decide

/-- Opening a single quote from the normal mode yields a mutex state. -/
theorem mutex_open_sq : ∀ s : CState, ¬s.inLineComment = true → ¬s.inBlockComment = true →
    ¬s.inDouble = true → ¬s.inBacktick = true →
    mutexB { s with inSingle := true } = true := by decide

/-- Opening a double quote from the normal mode yields a mutex state. -/
theorem mutex_open_dq : ∀ s : CState, ¬s.inLineComment = true → ¬s.inBlockComment = true →
    ¬s.inSingle = true → ¬s.inBacktick = true →
    mutexB { s with inDouble := true } = true := by decide

/-- Opening a backtick literal from the normal mode yields a mutex state. -/
theorem mutex_open_bt : ∀ s : CState, ¬s.inLineComment = true → ¬s.inBlockComment = true →
    ¬s.inSingle = true → ¬s.inDouble = true →
    mutexB { s with inBacktick := true } = true := by decide

/-- Every state visited by the C-family scanner satisfies mutual
exclusion of the five lexical-context flags, as long as the initial
state does. -/
theorem cGo_trace_mutex : ∀ (s : CState) (l : List Char), mutexB s = true →
    ((cGo s l).trace).all mutexB = true := by
  intro s l
  induction s, l using cGo.induct with
  | case1 s => intro _; rfl
  | case2 s h => intro hm; simp [cGo, h, hm]
  | case3 s ch h hch => intro hm; simp only [cGo, if_pos h, if_neg hch]; simp [hm]
  | case4 s ch hlc hbc => intro hm; simp only [cGo, if_neg hlc, if_pos hbc]; simp [hm]
  | case5 s ch hlc hbc => intro hm; simp only [cGo, if_neg hlc, if_neg hbc]; simp [hm]
  | case6 s c2 rest2 h ih =>
    intro hm
    simp only [cGo, if_pos h, if_pos rfl, if_true, List.all_cons, Bool.and_eq_true]
    exact ⟨hm, ih (mutex_clear_lc s hm)⟩
  | case7 s ch c2 rest2 h hch ih =>
    intro hm
    simp only [cGo, if_pos h, if_neg hch, List.all_cons, Bool.and_eq_true]
    exact ⟨hm, ih hm⟩
  | case8 s ch c2 rest2 hlc hbc h ih =>
    intro hm
    simp only [cGo, if_neg hlc, if_pos hbc, if_pos h, List.all_cons, Bool.and_eq_true]
    exact ⟨hm, ih (mutex_clear_bc s hm)⟩
  | case9 s ch c2 rest2 hlc hbc h ih =>
    intro hm
    simp only [cGo, if_neg hlc, if_pos hbc, if_neg h, List.all_cons, Bool.and_eq_true]
    exact ⟨hm, ih hm⟩
  | case10 s c2 rest2 hlc hbc hsq ih =>
    intro hm
    simp only [cGo, if_neg hlc, if_neg hbc, if_pos hsq, if_pos rfl, if_true, List.all_cons,
      Bool.and_eq_true]
    exact ⟨hm, ih hm⟩
  | case11 s c2 rest2 hlc hbc hsq h ih =>
    intro hm
    simp only [cGo, if_neg hlc, if_neg hbc, if_pos hsq, if_neg h, if_pos rfl, if_true,
      List.all_cons, Bool.and_eq_true]
    exact ⟨hm, ih (mutex_clear_sq s hm)⟩
  | case12 s ch c2 rest2 hlc hbc hsq h1 h2 ih =>
    intro hm
    simp only [cGo, if_neg hlc, if_neg hbc, if_pos hsq, if_neg h1, if_neg h2, List.all_cons,
      Bool.and_eq_true]
    exact ⟨hm, ih hm⟩
  | case13 s c2 rest2 hlc hbc hsq hdq ih =>
    intro hm
    simp only [cGo, if_neg hlc, if_neg hbc, if_neg hsq, if_pos hdq, if_pos rfl, if_true,
      List.all_cons, Bool.and_eq_true]
    exact ⟨hm, ih hm⟩
  | case14 s c2 rest2 hlc hbc hsq hdq h ih =>
    intro hm
    simp only [cGo, if_neg hlc, if_neg hbc, if_neg hsq, if_pos hdq, if_neg h, if_pos rfl,
      if_true, List.all_cons, Bool.and_eq_true]
    exact ⟨hm, ih (mutex_clear_dq s hm)⟩
  | case15 s ch c2 rest2 hlc hbc hsq hdq h1 h2 ih =>
    intro hm
    simp only [cGo, if_neg hlc, if_neg hbc, if_neg hsq, if_pos hdq, if_neg h1, if_neg h2,
      List.all_cons, Bool.and_eq_true]
    exact ⟨hm, ih hm⟩
  | case16 s ch c2 rest2 hlc hbc hsq hdq hbt h ih =>
    intro hm
    simp only [cGo, if_neg hlc, if_neg hbc, if_neg hsq, if_neg hdq, if_pos hbt, if_pos h,
      List.all_cons, Bool.and_eq_true]
    exact ⟨hm, ih hm⟩
  | case17 s c2 rest2 hlc hbc hsq hdq hbt h ih =>
    intro hm
    simp only [cGo, if_neg hlc, if_neg hbc, if_neg hsq, if_neg hdq, if_pos hbt, if_neg h,
      if_pos rfl, if_true, List.all_cons, Bool.and_eq_true]
    exact ⟨hm, ih (mutex_clear_bt s hm)⟩
  | case18 s ch c2 rest2 hlc hbc hsq hdq hbt h1 h2 ih =>
    intro hm
    simp only [cGo, if_neg hlc, if_neg hbc, if_neg hsq, if_neg hdq, if_pos hbt, if_neg h1,
      if_neg h2, List.all_cons, Bool.and_eq_true]
    exact ⟨hm, ih hm⟩
  | case19 s ch c2 rest2 hlc hbc hsq hdq hbt h ih =>
    intro hm
    simp only [cGo, if_neg hlc, if_neg hbc, if_neg hsq, if_neg hdq, if_neg hbt, if_pos h,
      List.all_cons, Bool.and_eq_true]
    exact ⟨hm, ih (mutex_open_lc s hbc hsq hdq hbt)⟩
  | case20 s ch c2 rest2 hlc hbc hsq hdq hbt h1 h2 ih =>
    intro hm
    simp only [cGo, if_neg hlc, if_neg hbc, if_neg hsq, if_neg hdq, if_neg hbt, if_neg h1,
      if_pos h2, List.all_cons, Bool.and_eq_true]
    exact ⟨hm, ih (mutex_open_bc s hlc hsq hdq hbt)⟩
  | case21 s c2 rest2 hlc hbc hsq hdq hbt h1 h2 ih =>
    intro hm
    simp only [cGo, if_neg hlc, if_neg hbc, if_neg hsq, if_neg hdq, if_neg hbt, if_neg h1,
      if_neg h2, if_pos rfl, if_true, List.all_cons, Bool.and_eq_true]
    exact ⟨hm, ih (mutex_open_sq s hlc hbc hdq hbt)⟩
  | case22 s c2 rest2 hlc hbc hsq hdq hbt h1 h2 h3 ih =>
    intro hm
    simp only [cGo, if_neg hlc, if_neg hbc, if_neg hsq, if_neg hdq, if_neg hbt, if_neg h1,
      if_neg h2, if_neg h3, if_pos rfl, if_true, List.all_cons, Bool.and_eq_true]
    exact ⟨hm, ih (mutex_open_dq s hlc hbc hsq hbt)⟩
  | case23 s c2 rest2 hlc hbc hsq hdq hbt h1 h2 h3 h4 ih =>
    intro hm
    simp only [cGo, if_neg hlc, if_neg hbc, if_neg hsq, if_neg hdq, if_neg hbt, if_neg h1,
      if_neg h2, if_neg h3, if_neg h4, if_pos rfl, if_true, List.all_cons, Bool.and_eq_true]
    exact ⟨hm, ih (mutex_open_bt s hlc hbc hsq hdq)⟩
  | case24 s ch c2 rest2 hlc hbc hsq hdq hbt h1 h2 h3 h4 h5 ih =>
    intro hm
    simp only [cGo, if_neg hlc, if_neg hbc, if_neg hsq, if_neg hdq, if_neg hbt, if_neg h1,
      if_neg h2, if_neg h3, if_neg h4, if_neg h5, List.all_cons, Bool.and_eq_true]
    exact ⟨hm, ih hm⟩

/-- The two quote flags of the shell scanner are never both active. -/
theorem shellLineGo_trace_mutex (p : Bool) (i : Nat) :
    ∀ (l : List Char) (prev : Option Char) (sq dq : Bool), (sq && dq) = false →
      ((shellLineGo p i l prev sq dq).trace).all (fun q => !(q.1 && q.2)) = true := by
  intro l prev sq dq
  induction l, prev, sq, dq using shellLineGo.induct p i with
  | case1 prev sq dq => intro _; rfl
  | case2 ch rest prev sq dq h ih =>
    intro hm
    rw [shellLineGo.eq_def]
    simp only [if_pos h, List.all_cons, Bool.and_eq_true]
    refine ⟨by simp [hm], ih ?_⟩
    simp [h.2]
  | case3 ch rest prev sq dq h1 h2 ih =>
    intro hm
    rw [shellLineGo.eq_def]
    simp only [if_neg h1, if_pos h2, List.all_cons, Bool.and_eq_true]
    refine ⟨by simp [hm], ih ?_⟩
    simp [h2.2]
  | case4 ch prev sq dq h1 h2 h3 c2 rest2 ih =>
    intro hm
    rw [shellLineGo.eq_def]
    simp only [if_neg h1, if_neg h2, if_pos h3, List.all_cons, Bool.and_eq_true]
    exact ⟨by simp [hm], ih hm⟩
  | case5 ch prev sq dq h1 h2 h3 =>
    intro hm
    rw [shellLineGo.eq_def]
    simp only [if_neg h1, if_neg h2, if_pos h3, List.all_cons, List.all_nil,
      Bool.and_eq_true]
    simp [hm]
  | case6 ch rest prev sq dq h1 h2 h3 h4 ih =>
    intro hm
    rw [shellLineGo.eq_def]
    simp only [if_neg h1, if_neg h2, if_neg h3, if_pos h4, List.all_cons, Bool.and_eq_true]
    exact ⟨by simp [hm], ih hm⟩
  | case7 rest prev sq dq h4 h1 h2 h3 h5 =>
    intro hm
    rw [shellLineGo.eq_def]
    simp only [if_neg h1, if_neg h2, if_neg h3, if_neg h4, if_pos rfl, if_true, if_pos h5,
      List.all_cons, List.all_nil, Bool.and_eq_true]
    simp [hm]
  | case8 rest prev sq dq h4 h1 h2 h3 h5 =>
    intro hm
    rw [shellLineGo.eq_def]
    simp only [if_neg h1, if_neg h2, if_neg h3, if_neg h4, if_pos rfl, if_true, if_neg h5,
      List.all_cons, List.all_nil, Bool.and_eq_true]
    simp [hm]
  | case9 ch rest prev sq dq h1 h2 h3 h4 h5 ih =>
    intro hm
    rw [shellLineGo.eq_def]
    simp only [if_neg h1, if_neg h2, if_neg h3, if_neg h4, if_neg h5, List.all_cons,
      Bool.and_eq_true]
    exact ⟨by simp [hm], ih hm⟩

/-- Mutual exclusion over all shell lines. -/
theorem shellLinesGo_trace_mutex (p : Bool) :
    ∀ (L : List (List Char)) (i : Nat),
      ((shellLinesGo p i L).trace).all (fun q => !(q.1 && q.2)) = true := by
  intro L
  induction L with
  | nil => intro i; rfl
  | cons l ls ih =>
    intro i
    simp only [shellLinesGo, List.all_append, Bool.and_eq_true]
    exact ⟨shellLineGo_trace_mutex p i l none false false rfl, ih (i + 1)⟩

/-- C7: at every position of either scan, at most one lexical-context
flag is active: all states in the C-family trace satisfy `mutexB`, and
the shell scanner's two quote flags are never simultaneously true. -/
theorem c7_mutual_exclusion : ∀ (p : Bool) (content : List Char),
    ((cGo stInit content).trace).all mutexB = true ∧
    ((shellLinesGo p 0 (pySplit content)).trace).all (fun q => !(q.1 && q.2)) = true := by
  intro p content
  exact ⟨cGo_trace_mutex stInit content rfl, shellLinesGo_trace_mutex p (pySplit content) 0⟩

/-- The suffix after the first newline, if any: how a line comment ends. -/
def afterLine : List Char → Option (List Char)
  | [] => none
  | c :: rest => if c = '\n' then some rest else afterLine rest

/-- The suffix after the first `*/`, scanned the way the C-family
scanner scans a block comment. -/
def dropBlock : List Char → Option (List Char)
  | [] => none
  | [_] => none
  | c :: c2 :: rest2 =>
    if c = '*' ∧ c2 = '/' then some rest2 else dropBlock (c2 :: rest2)

/-- Characterization of a scan that starts inside a line comment: either
there is no newline and everything is dropped, or the newline is kept and
scanning resumes in the normal state. -/
theorem cGo_lc : ∀ (l : List Char),
    ((cGo stLC l).out, (cGo stLC l).removed) =
      (match afterLine l with
        | none => (([] : List Char), 0)
        | some r => ('\n' :: (cGo stInit r).out, (cGo stInit r).removed)) := by
  intro l
  induction l with
  | nil => rfl
  | cons c rest ih =>
    cases rest with
    | nil =>
      by_cases hc : c = '\n'
      · subst hc; rfl
      · simp [cGo, afterLine, stLC, hc]
    | cons d rest2 =>
      by_cases hc : c = '\n'
      · subst hc; rfl
      · have h1 : (cGo stLC (c :: d :: rest2)).out = (cGo stLC (d :: rest2)).out := by
          simp [cGo, stLC, hc]
        have h2 : (cGo stLC (c :: d :: rest2)).removed = (cGo stLC (d :: rest2)).removed := by
          simp [cGo, stLC, hc]
        have h3 : afterLine (c :: d :: rest2) = afterLine (d :: rest2) := by
          simp [afterLine, hc]
        rw [h1, h2, h3]
        exact ih

/-- Characterization of a scan that starts inside a block comment: either
there is no `*/` and everything is dropped, or scanning resumes in the
normal state right after the terminator. -/
theorem cGo_bc : ∀ (l : List Char),
    ((cGo stBC l).out, (cGo stBC l).removed) =
      (match dropBlock l with
        | none => (([] : List Char), 0)
        | some r => ((cGo stInit r).out, (cGo stInit r).removed)) := by
  intro l
  induction l using dropBlock.induct with
  | case1 => rfl
  | case2 c => rfl
  | case3 c c2 rest2 h =>
    obtain ⟨rfl, rfl⟩ := h
    rfl
  | case4 c c2 rest2 h ih =>
    have h1 : (cGo stBC (c :: c2 :: rest2)).out = (cGo stBC (c2 :: rest2)).out := by
      simp [cGo, stBC, h]
    have h2 : (cGo stBC (c :: c2 :: rest2)).removed = (cGo stBC (c2 :: rest2)).removed := by
      simp [cGo, stBC, h]
    have h3 : dropBlock (c :: c2 :: rest2) = dropBlock (c2 :: rest2) := by
      simp [dropBlock, h]
    rw [h1, h2, h3]
    exact ih

/-- A newline found by `afterLine` strictly shortens the list. -/
theorem afterLine_some_length : ∀ (l r : List Char),
    afterLine l = some r → r.length < l.length := by
  intro l
  induction l with
  | nil => intro r h; simp [afterLine] at h
  | cons c rest ih =>
    intro r h
    simp only [afterLine] at h
    by_cases hc : c = '\n'
    · rw [if_pos hc] at h
      injection h with h
      subst h
      simp
    · rw [if_neg hc] at h
      have := ih r h
      simp only [List.length_cons]
      omega

/-- A terminator found by `dropBlock` strictly shortens the list. -/
theorem dropBlock_some_length : ∀ (l r : List Char),
    dropBlock l = some r → r.length < l.length := by
  intro l
  induction l using dropBlock.induct with
  | case1 => intro r h; simp [dropBlock] at h
  | case2 c => intro r h; simp [dropBlock] at h
  | case3 c c2 rest2 h =>
    intro r hr
    simp only [dropBlock, if_pos h] at hr
    injection hr with hr
    subst hr
    simp only [List.length_cons]
    omega
  | case4 c c2 rest2 h ih =>
    intro r hr
    simp only [dropBlock, if_neg h] at hr
    have := ih r hr
    simp only [List.length_cons] at *
    omega

/-- C8: both scanners are total: every input yields a result pair, and
the end-of-buffer fallbacks hold: a line comment with no following
newline drops the remainder, and an unterminated block comment drops the
remainder, in both cases without introducing any failure state. -/
theorem c8_total : ∀ (fam : LanguageFamily) (p : Bool) (content l : List Char),
    (∃ res : List Char × Nat, scan fam p content = res) ∧
    (afterLine l = none → (cGo stLC l).out = [] ∧ (cGo stLC l).removed = 0) ∧
    (dropBlock l = none → (cGo stBC l).out = [] ∧ (cGo stBC l).removed = 0) := by
  intro fam p content l
  refine ⟨⟨_, rfl⟩, ?_, ?_⟩
  · intro hn
    have h := cGo_lc l
    rw [hn] at h
    rw [Prod.ext_iff] at h
    exact ⟨h.1, h.2⟩
  · intro hn
    have h := cGo_bc l
    rw [hn] at h
    rw [Prod.ext_iff] at h
    exact ⟨h.1, h.2⟩

/-- C8 witness: the totality and the two fallbacks at concrete inputs. -/
theorem c8_total_witness :
    (∃ res : List Char × Nat, scan .c_like true ("a//b".toList) = res) ∧
    ((cGo stLC ("abc".toList)).out = [] ∧ (cGo stLC ("abc".toList)).removed = 0) ∧
    ((cGo stBC ("abc".toList)).out = [] ∧ (cGo stBC ("abc".toList)).removed = 0) := by
  have h := c8_total .c_like true ("a//b".toList) ("abc".toList)
  exact ⟨h.1, h.2.1 (by decide), h.2.2 (by decide)⟩

/-- Bodies the C-family scanner accepts inside a double-quoted literal: a
sequence of escape pairs (backslash plus any character) and single
characters other than `"` and a bare trailing backslash. -/
def cDqBody : List Char → Bool
  | [] => true
  | [c] => decide (c ≠ '"') && decide (c ≠ '\\')
  | c :: c2 :: rest2 =>
    if c = '\\' then cDqBody rest2
    else decide (c ≠ '"') && cDqBody (c2 :: rest2)

/-- Bodies the C-family scanner accepts inside a single-quoted literal. -/
def cSqBody : List Char → Bool
  | [] => true
  | [c] => decide (c ≠ '\'') && decide (c ≠ '\\')
  | c :: c2 :: rest2 =>
    if c = '\\' then cSqBody rest2
    else decide (c ≠ '\'') && cSqBody (c2 :: rest2)

/-- Bodies the C-family scanner accepts inside a backtick literal: only
the escaped backtick is a pair; other characters (including lone
backslashes not followed by a backtick) are plain content. -/
def cBtBody : List Char → Bool
  | [] => true
  | [c] => decide (c ≠ backquote) && decide (c ≠ '\\')
  | c :: c2 :: rest2 =>
    if c = '\\' ∧ c2 = backquote then cBtBody rest2
    else decide (c ≠ backquote) && cBtBody (c2 :: rest2)

/-- Bodies the shell scanner accepts inside a double-quoted literal on a
single line. -/
def shellDqBody : List Char → Bool
  | [] => true
  | [c] => decide (c ≠ '"') && decide (c ≠ '\\') && decide (c ≠ '\n')
  | c :: c2 :: rest2 =>
    if c = '\\' then decide (c2 ≠ '\n') && shellDqBody rest2
    else decide (c ≠ '"') && decide (c ≠ '\n') && shellDqBody (c2 :: rest2)

/-- Opening a double quote from the normal C-family state. -/
theorem cGo_open_dq (x : List Char) :
    (cGo stInit ('"' :: x)).out = '"' :: (cGo stDQ x).out ∧
    (cGo stInit ('"' :: x)).removed = (cGo stDQ x).removed := by
  cases x <;> exact ⟨rfl, rfl⟩

/-- Opening a single quote from the normal C-family state. -/
theorem cGo_open_sq (x : List Char) :
    (cGo stInit ('\'' :: x)).out = '\'' :: (cGo stSQ x).out ∧
    (cGo stInit ('\'' :: x)).removed = (cGo stSQ x).removed := by
  cases x <;> exact ⟨rfl, rfl⟩

/-- Opening a backtick literal from the normal C-family state. -/
theorem cGo_open_bt (x : List Char) :
    (cGo stInit (backquote :: x)).out = backquote :: (cGo stBT x).out ∧
    (cGo stInit (backquote :: x)).removed = (cGo stBT x).removed := by
  cases x <;> exact ⟨rfl, rfl⟩

/-- Closing a double-quoted literal. -/
theorem cGo_close_dq (x : List Char) :
    (cGo stDQ ('"' :: x)).out = '"' :: (cGo stInit x).out ∧
    (cGo stDQ ('"' :: x)).removed = (cGo stInit x).removed := by
  cases x <;> exact ⟨rfl, rfl⟩

/-- Closing a single-quoted literal. -/
theorem cGo_close_sq (x : List Char) :
    (cGo stSQ ('\'' :: x)).out = '\'' :: (cGo stInit x).out ∧
    (cGo stSQ ('\'' :: x)).removed = (cGo stInit x).removed := by
  cases x <;> exact ⟨rfl, rfl⟩

/-- Closing a backtick literal. -/
theorem cGo_close_bt (x : List Char) :
    (cGo stBT (backquote :: x)).out = backquote :: (cGo stInit x).out ∧
    (cGo stBT (backquote :: x)).removed = (cGo stInit x).removed := by
  cases x <;> exact ⟨rfl, rfl⟩

/-- An escape pair inside a double-quoted C-family literal. -/
theorem cGo_pair_dq (c2 : Char) (tail : List Char) :
    (cGo stDQ ('\\' :: c2 :: tail)).out = '\\' :: c2 :: (cGo stDQ tail).out ∧
    (cGo stDQ ('\\' :: c2 :: tail)).removed = (cGo stDQ tail).removed :=
  ⟨rfl, rfl⟩

/-- An escape pair inside a single-quoted C-family literal. -/
theorem cGo_pair_sq (c2 : Char) (tail : List Char) :
    (cGo stSQ ('\\' :: c2 :: tail)).out = '\\' :: c2 :: (cGo stSQ tail).out ∧
    (cGo stSQ ('\\' :: c2 :: tail)).removed = (cGo stSQ tail).removed :=
  ⟨rfl, rfl⟩

/-- An escaped backtick inside a backtick literal. -/
theorem cGo_pair_bt (tail : List Char) :
    (cGo stBT ('\\' :: backquote :: tail)).out =
      '\\' :: backquote :: (cGo stBT tail).out ∧
    (cGo stBT ('\\' :: backquote :: tail)).removed = (cGo stBT tail).removed :=
  ⟨rfl, rfl⟩

/-- Any other character inside a double-quoted C-family literal is
copied. -/
theorem cGo_copy_dq (c : Char) (x : List Char) (h1 : c ≠ '"') (h2 : c ≠ '\\') :
    (cGo stDQ (c :: x)).out = c :: (cGo stDQ x).out ∧
    (cGo stDQ (c :: x)).removed = (cGo stDQ x).removed := by
  cases x with
  | nil => constructor <;> simp [cGo, stDQ]
  | cons d t => constructor <;> simp [cGo, stDQ, h1, h2]

/-- Any other character inside a single-quoted C-family literal is
copied. -/
theorem cGo_copy_sq (c : Char) (x : List Char) (h1 : c ≠ '\'') (h2 : c ≠ '\\') :
    (cGo stSQ (c :: x)).out = c :: (cGo stSQ x).out ∧
    (cGo stSQ (c :: x)).removed = (cGo stSQ x).removed := by
  cases x with
  | nil => constructor <;> simp [cGo, stSQ]
  | cons d t => constructor <;> simp [cGo, stSQ, h1, h2]

/-- A character other than a backslash-backtick pair or a closing
backtick is copied inside a backtick literal. -/
theorem cGo_copy_bt (c : Char) (x : List Char) (h1 : c ≠ backquote)
    (h2 : ¬(c = '\\' ∧ x.head? = some backquote)) :
    (cGo stBT (c :: x)).out = c :: (cGo stBT x).out ∧
    (cGo stBT (c :: x)).removed = (cGo stBT x).removed := by
  cases x with
  | nil => constructor <;> simp [cGo, stBT]
  | cons d t =>
    have h3 : ¬(c = '\\' ∧ d = backquote) := by simpa using h2
    constructor <;> simp [cGo, stBT, h1, h3]

/-- Scanning a valid double-quoted body inside `stDQ` copies it verbatim
up to and including the closing quote. -/
theorem cGo_dq_run : ∀ (body : List Char), cDqBody body = true → ∀ (rest : List Char),
    (cGo stDQ (body ++ '"' :: rest)).out = body ++ '"' :: (cGo stInit rest).out ∧
    (cGo stDQ (body ++ '"' :: rest)).removed = (cGo stInit rest).removed := by
  intro body
  induction body using cDqBody.induct with
  | case1 => intro _ rest; simpa using cGo_close_dq rest
  | case2 c =>
    intro hb rest
    simp only [cDqBody, Bool.and_eq_true, decide_eq_true_eq] at hb
    have hc := cGo_copy_dq c ('"' :: rest) hb.1 hb.2
    have hcl := cGo_close_dq rest
    simp only [List.cons_append, List.nil_append] at *
    exact ⟨by rw [hc.1, hcl.1], by rw [hc.2, hcl.2]⟩
  | case3 c2 rest2 ih =>
    intro hb rest
    simp only [cDqBody, if_pos rfl, if_true] at hb
    have hp := cGo_pair_dq c2 (rest2 ++ '"' :: rest)
    have hr := ih hb rest
    simp only [List.cons_append] at *
    exact ⟨by rw [hp.1, hr.1], by rw [hp.2, hr.2]⟩
  | case4 c c2 rest2 h ih =>
    intro hb rest
    simp only [cDqBody, if_neg h, Bool.and_eq_true, decide_eq_true_eq] at hb
    have hc := cGo_copy_dq c ((c2 :: rest2) ++ '"' :: rest) hb.1 h
    have hr := ih hb.2 rest
    simp only [List.cons_append] at *
    exact ⟨by rw [hc.1, hr.1], by rw [hc.2, hr.2]⟩

/-- Scanning a valid single-quoted body inside `stSQ` copies it verbatim
up to and including the closing quote. -/
theorem cGo_sq_run : ∀ (body : List Char), cSqBody body = true → ∀ (rest : List Char),
    (cGo stSQ (body ++ '\'' :: rest)).out = body ++ '\'' :: (cGo stInit rest).out ∧
    (cGo stSQ (body ++ '\'' :: rest)).removed = (cGo stInit rest).removed := by
  intro body
  induction body using cSqBody.induct with
  | case1 => intro _ rest; simpa using cGo_close_sq rest
  | case2 c =>
    intro hb rest
    simp only [cSqBody, Bool.and_eq_true, decide_eq_true_eq] at hb
    have hc := cGo_copy_sq c ('\'' :: rest) hb.1 hb.2
    have hcl := cGo_close_sq rest
    simp only [List.cons_append, List.nil_append] at *
    exact ⟨by rw [hc.1, hcl.1], by rw [hc.2, hcl.2]⟩
  | case3 c2 rest2 ih =>
    intro hb rest
    simp only [cSqBody, if_pos rfl, if_true] at hb
    have hp := cGo_pair_sq c2 (rest2 ++ '\'' :: rest)
    have hr := ih hb rest
    simp only [List.cons_append] at *
    exact ⟨by rw [hp.1, hr.1], by rw [hp.2, hr.2]⟩
  | case4 c c2 rest2 h ih =>
    intro hb rest
    simp only [cSqBody, if_neg h, Bool.and_eq_true, decide_eq_true_eq] at hb
    have hc := cGo_copy_sq c ((c2 :: rest2) ++ '\'' :: rest) hb.1 h
    have hr := ih hb.2 rest
    simp only [List.cons_append] at *
    exact ⟨by rw [hc.1, hr.1], by rw [hc.2, hr.2]⟩

/-- Scanning a valid backtick body inside `stBT` copies it verbatim up to
and including the closing backtick. -/
theorem cGo_bt_run : ∀ (body : List Char), cBtBody body = true → ∀ (rest : List Char),
    (cGo stBT (body ++ backquote :: rest)).out =
      body ++ backquote :: (cGo stInit rest).out ∧
    (cGo stBT (body ++ backquote :: rest)).removed = (cGo stInit rest).removed := by
  intro body
  induction body using cBtBody.induct with
  | case1 => intro _ rest; simpa using cGo_close_bt rest
  | case2 c =>
    intro hb rest
    simp only [cBtBody, Bool.and_eq_true, decide_eq_true_eq] at hb
    have hc := cGo_copy_bt c (backquote :: rest) hb.1 (by
      intro hcontr
      exact hb.2 hcontr.1)
    have hcl := cGo_close_bt rest
    simp only [List.cons_append, List.nil_append] at *
    exact ⟨by rw [hc.1, hcl.1], by rw [hc.2, hcl.2]⟩
  | case3 c c2 rest2 h ih =>
    intro hb rest
    obtain ⟨rfl, rfl⟩ := h
    simp [cBtBody] at hb
    have hp := cGo_pair_bt (rest2 ++ backquote :: rest)
    have hr := ih hb rest
    simp only [List.cons_append] at *
    exact ⟨by rw [hp.1, hr.1], by rw [hp.2, hr.2]⟩
  | case4 c c2 rest2 h ih =>
    intro hb rest
    simp only [cBtBody, if_neg h, Bool.and_eq_true, decide_eq_true_eq] at hb
    have hc := cGo_copy_bt c ((c2 :: rest2) ++ backquote :: rest) hb.1 (by
      intro hcontr
      simp only [List.cons_append, List.head?_cons, Option.some.injEq] at hcontr
      exact h ⟨hcontr.1, hcontr.2⟩)
    have hr := ih hb.2 rest
    simp only [List.cons_append] at *
    exact ⟨by rw [hc.1, hr.1], by rw [hc.2, hr.2]⟩

/-- Opening a shell double quote at the start of a line. -/
theorem shellDq_open (p : Bool) (i : Nat) (x : List Char) :
    (shellLineGo p i ('"' :: x) none false false).out =
      '"' :: (shellLineGo p i x (some '"') false true).out ∧
    (shellLineGo p i ('"' :: x) none false false).removed =
      (shellLineGo p i x (some '"') false true).removed := by
  rw [shellLineGo.eq_def]
  constructor <;> simp

/-- A backslash escape pair inside a shell double-quoted string. -/
theorem shellDq_pair (p : Bool) (i : Nat) (c2 : Char) (tail : List Char)
    (prev : Option Char) :
    (shellLineGo p i ('\\' :: c2 :: tail) prev false true).out =
      '\\' :: c2 :: (shellLineGo p i tail (some c2) false true).out ∧
    (shellLineGo p i ('\\' :: c2 :: tail) prev false true).removed =
      (shellLineGo p i tail (some c2) false true).removed :=
  ⟨rfl, rfl⟩

/-- Any other character inside a shell double-quoted string is copied. -/
theorem shellDq_copy (p : Bool) (i : Nat) (c : Char) (x : List Char) (prev : Option Char)
    (h1 : c ≠ '"') (h2 : c ≠ '\\') :
    (shellLineGo p i (c :: x) prev false true).out =
      c :: (shellLineGo p i x (some c) false true).out ∧
    (shellLineGo p i (c :: x) prev false true).removed =
      (shellLineGo p i x (some c) false true).removed := by
  rw [shellLineGo.eq_def]
  constructor <;> simp [h1, h2]

/-- A lone closing quote inside a shell double-quoted string produces the
quote and nothing else, whatever the previous character was. -/
theorem shellDq_final (p : Bool) (i : Nat) (prev : Option Char) :
    (shellLineGo p i ['"'] prev false true).out = ['"'] ∧
    (shellLineGo p i ['"'] prev false true).removed = 0 := by
  rw [shellLineGo.eq_def]
  constructor <;> simp [shellLineGo]

/-- A valid single-line shell double-quote body contains no newline. -/
theorem shellDqBody_no_newline : ∀ (body : List Char), shellDqBody body = true →
    '\n' ∉ body := by
  intro body
  induction body using shellDqBody.induct with
  | case1 => intro _; simp
  | case2 c =>
    intro hb
    simp only [shellDqBody, Bool.and_eq_true, decide_eq_true_eq] at hb
    intro hm
    rw [List.mem_singleton] at hm
    exact hb.2 hm.symm
  | case3 c2 rest2 ih =>
    intro hb
    simp only [shellDqBody, if_pos rfl, if_true, Bool.and_eq_true,
      decide_eq_true_eq] at hb
    intro hm
    rcases List.mem_cons.mp hm with hh | hh
    · exact absurd hh.symm (by decide)
    · rcases List.mem_cons.mp hh with hh2 | hh2
      · exact hb.1 hh2.symm
      · exact ih hb.2 hh2
  | case4 c c2 rest2 h ih =>
    intro hb
    simp only [shellDqBody, if_neg h, Bool.and_eq_true, decide_eq_true_eq] at hb
    intro hm
    rcases List.mem_cons.mp hm with hh | hh
    · exact hb.1.2 hh.symm
    · exact ih hb.2 hh

/-- Scanning a valid shell double-quote body copies it verbatim up to and
including the closing quote, with no comment removed. -/
theorem shellDq_run (p : Bool) (i : Nat) : ∀ (body : List Char),
    shellDqBody body = true → ∀ (prev : Option Char),
      (shellLineGo p i (body ++ ['"']) prev false true).out = body ++ ['"'] ∧
      (shellLineGo p i (body ++ ['"']) prev false true).removed = 0 := by
  intro body
  induction body using shellDqBody.induct with
  | case1 => intro _ prev; exact shellDq_final p i prev
  | case2 c =>
    intro hb prev
    simp only [shellDqBody, Bool.and_eq_true, decide_eq_true_eq] at hb
    have hc := shellDq_copy p i c ['"'] prev hb.1.1 hb.1.2
    have hf := shellDq_final p i (some c)
    simp only [List.cons_append, List.nil_append] at *
    exact ⟨by rw [hc.1, hf.1], by rw [hc.2, hf.2]⟩
  | case3 c2 rest2 ih =>
    intro hb prev
    simp only [shellDqBody, if_pos rfl, if_true, Bool.and_eq_true,
      decide_eq_true_eq] at hb
    have hp := shellDq_pair p i c2 (rest2 ++ ['"']) prev
    have hr := ih hb.2 (some c2)
    simp only [List.cons_append] at *
    exact ⟨by rw [hp.1, hr.1], by rw [hp.2, hr.2]⟩
  | case4 c c2 rest2 h ih =>
    intro hb prev
    simp only [shellDqBody, if_neg h, Bool.and_eq_true, decide_eq_true_eq] at hb
    have hc := shellDq_copy p i c ((c2 :: rest2) ++ ['"']) prev hb.1.1 h
    have hr := ih hb.2 (some c)
    simp only [List.cons_append] at *
    exact ⟨by rw [hc.1, hr.1], by rw [hc.2, hr.2]⟩

/-- A C-family double-quoted literal scans to itself with no removal. -/
theorem cLike_dq_literal (body : List Char) (hb : cDqBody body = true) :
    remove_comments_from_c_like ('"' :: body ++ ['"']) = ('"' :: body ++ ['"'], 0) := by
  have hop := cGo_open_dq (body ++ ['"'])
  have hrun := cGo_dq_run body hb []
  show ((cGo stInit ('"' :: (body ++ ['"']))).out,
    (cGo stInit ('"' :: (body ++ ['"']))).removed) = ('"' :: body ++ ['"'], 0)
  rw [hop.1, hop.2, hrun.1, hrun.2]
  rfl

/-- A C-family single-quoted literal scans to itself with no removal. -/
theorem cLike_sq_literal (body : List Char) (hb : cSqBody body = true) :
    remove_comments_from_c_like ('\'' :: body ++ ['\'']) =
      ('\'' :: body ++ ['\''], 0) := by
  have hop := cGo_open_sq (body ++ ['\''])
  have hrun := cGo_sq_run body hb []
  show ((cGo stInit ('\'' :: (body ++ ['\'']))).out,
    (cGo stInit ('\'' :: (body ++ ['\'']))).removed) = ('\'' :: body ++ ['\''], 0)
  rw [hop.1, hop.2, hrun.1, hrun.2]
  rfl

/-- A C-family backtick literal scans to itself with no removal. -/
theorem cLike_bt_literal (body : List Char) (hb : cBtBody body = true) :
    remove_comments_from_c_like (backquote :: body ++ [backquote]) =
      (backquote :: body ++ [backquote], 0) := by
  have hop := cGo_open_bt (body ++ [backquote])
  have hrun := cGo_bt_run body hb []
  show ((cGo stInit (backquote :: (body ++ [backquote]))).out,
    (cGo stInit (backquote :: (body ++ [backquote]))).removed) =
      (backquote :: body ++ [backquote], 0)
  rw [hop.1, hop.2, hrun.1, hrun.2]
  rfl

/-- A shell double-quoted literal scans to itself with no removal. -/
theorem shell_dq_literal (body : List Char) (hb : shellDqBody body = true) :
    remove_comments_from_shell true ('"' :: body ++ ['"']) =
      ('"' :: body ++ ['"'], 0) := by
  rw [List.cons_append]
  have hnn : '\n' ∉ ('"' :: (body ++ ['"'])) := by
    intro hm
    rcases List.mem_cons.mp hm with h | h
    · exact absurd h (by decide)
    · rcases List.mem_append.mp h with h | h
      · exact shellDqBody_no_newline body hb h
      · rw [List.mem_singleton] at h
        exact absurd h (by decide)
  have hsplit : pySplit ('"' :: (body ++ ['"'])) = [('"' :: (body ++ ['"']))] :=
    pySplit_of_no_newline hnn
  have hopen := shellDq_open true 0 (body ++ ['"'])
  have hrun := shellDq_run true 0 body hb (some '"')
  have hrs : pyRstrip ('"' :: (body ++ ['"'])) = '"' :: (body ++ ['"']) := by
    have h := pyRstrip_append_of_not_ws (c := '"') (by decide) ('"' :: body)
    simpa [List.cons_append] using h
  show (pyJoin (shellLinesGo true 0 (pySplit ('"' :: (body ++ ['"'])))).lines,
    (shellLinesGo true 0 (pySplit ('"' :: (body ++ ['"'])))).removed) =
      ('"' :: (body ++ ['"']), 0)
  rw [hsplit]
  simp only [shellLinesGo]
  rw [hopen.1, hrun.1, hopen.2, hrun.2, hrs]
  rfl

/-- C6: a properly delimited string literal containing a comment marker
scans to itself with zero comments removed, in all three C-family quote
modes and in the shell's double-quote mode: comment openers inside
string, character, or backtick literals are never treated as comment
starts. -/
theorem c6_literal_preservation :
    (∀ body, cDqBody body = true → (∃ a b, body = a ++ '/' :: '/' :: b) →
      scan .c_like true ('"' :: body ++ ['"']) = ('"' :: body ++ ['"'], 0)) ∧
    (∀ body, cSqBody body = true → (∃ a b, body = a ++ '/' :: '/' :: b) →
      scan .c_like true ('\'' :: body ++ ['\'']) = ('\'' :: body ++ ['\''], 0)) ∧
    (∀ body, cBtBody body = true → (∃ a b, body = a ++ '/' :: '*' :: b) →
      scan .c_like true (backquote :: body ++ [backquote]) =
        (backquote :: body ++ [backquote], 0)) ∧
    (∀ body, shellDqBody body = true → (∃ a b, body = a ++ '#' :: b) →
      scan .shell true ('"' :: body ++ ['"']) = ('"' :: body ++ ['"'], 0)) :=
  ⟨fun body hb _ => cLike_dq_literal body hb,
   fun body hb _ => cLike_sq_literal body hb,
   fun body hb _ => cLike_bt_literal body hb,
   fun body hb _ => shell_dq_literal body hb⟩

/-- C6 witness: the four literal-preservation statements at concrete
literals whose contents contain a comment marker. -/
theorem c6_literal_preservation_witness :
    scan .c_like true ('"' :: ("x // y".toList) ++ ['"']) =
      ('"' :: ("x // y".toList) ++ ['"'], 0) ∧
    scan .c_like true ('\'' :: ("a // b".toList) ++ ['\'']) =
      ('\'' :: ("a // b".toList) ++ ['\''], 0) ∧
    scan .c_like true (backquote :: ("c /* d".toList) ++ [backquote]) =
      (backquote :: ("c /* d".toList) ++ [backquote], 0) ∧
    scan .shell true ('"' :: ("e # f".toList) ++ ['"']) =
      ('"' :: ("e # f".toList) ++ ['"'], 0) :=
  ⟨c6_literal_preservation.1 _ (by decide) ⟨"x ".toList, " y".toList, by decide⟩,
   c6_literal_preservation.2.1 _ (by decide) ⟨"a ".toList, " b".toList, by decide⟩,
   c6_literal_preservation.2.2.1 _ (by decide) ⟨"c ".toList, " d".toList, by decide⟩,
   c6_literal_preservation.2.2.2 _ (by decide) ⟨"e ".toList, " f".toList, by decide⟩⟩

/-- Stripping a comment that starts with `#` drops nothing in front, so
`strip` on it is `#` followed by the right-stripped tail. -/
theorem pyStrip_hash (x : List Char) : pyStrip ('#' :: x) = '#' :: pyRstrip x := by
  unfold pyStrip
  rw [List.dropWhile_cons]
  rw [if_neg (by decide)]
  exact pyRstrip_cons_of_not_ws (by decide) x

/-- The privilege filter gives the same verdict on a right-stripped
comment as on the original comment. -/
theorem should_preserve_rstrip (p : Bool) (i : Nat) (x : List Char) :
    should_preserve_comment p ('#' :: pyRstrip x) i =
      should_preserve_comment p ('#' :: x) i := by
  unfold should_preserve_comment
  rw [pyStrip_hash, pyStrip_hash, pyRstrip_idem]

/-- `pyRstrip` of a cons is empty or keeps the head. -/
theorem pyRstrip_cons_cases (c : Char) (x : List Char) :
    pyRstrip (c :: x) = [] ∨ pyRstrip (c :: x) = c :: pyRstrip x := by
  rw [pyRstrip_cons]
  by_cases h0 : pyRstrip x = []
  · rw [if_pos h0]
    by_cases hw : c.isWhitespace
    · left; rw [if_pos hw]
    · right; rw [if_neg hw, h0]
  · right; rw [if_neg h0]

/-- Rescanning the right-stripped output of a shell line scan, from the
same start state, removes nothing. -/
theorem shellLine_rstrip_removed (p : Bool) (i : Nat) :
    ∀ (l : List Char) (prev : Option Char) (sq dq : Bool),
      (shellLineGo p i (pyRstrip (shellLineGo p i l prev sq dq).out) prev sq dq).removed
        = 0 := by
  intro l prev sq dq
  induction l, prev, sq, dq using shellLineGo.induct p i with
  | case1 prev sq dq => rfl
  | case2 ch rest prev sq dq h ih =>
    obtain ⟨rfl, rfl⟩ := h
    have hinner : (shellLineGo p i ('\'' :: rest) prev sq false).out =
        '\'' :: (shellLineGo p i rest (some '\'') (!sq) false).out := by
      rw [shellLineGo.eq_def]; simp
    rw [hinner, pyRstrip_cons_of_not_ws (by decide)]
    have houter : ∀ X : List Char,
        (shellLineGo p i ('\'' :: X) prev sq false).removed =
          (shellLineGo p i X (some '\'') (!sq) false).removed := by
      intro X; rw [shellLineGo.eq_def]; simp
    rw [houter]
    exact ih
  | case3 ch rest prev sq dq h1 h2 ih =>
    obtain ⟨rfl, rfl⟩ := h2
    have hinner : (shellLineGo p i ('"' :: rest) prev false dq).out =
        '"' :: (shellLineGo p i rest (some '"') false
          (if dq = false then true
           else if prev ≠ none ∧ prev ≠ some '\\' then false else dq)).out := by
      rw [shellLineGo.eq_def]
      simp only [if_neg h1, and_self, if_true]
    rw [hinner, pyRstrip_cons_of_not_ws (by decide)]
    have houter : ∀ X : List Char,
        (shellLineGo p i ('"' :: X) prev false dq).removed =
          (shellLineGo p i X (some '"') false
            (if dq = false then true
             else if prev ≠ none ∧ prev ≠ some '\\' then false else dq)).removed := by
      intro X
      rw [shellLineGo.eq_def]
      simp only [if_neg h1, and_self, if_true]
    rw [houter]
    exact ih
  | case4 ch prev sq dq h1 h2 h3 c2 rest2 ih =>
    obtain ⟨rfl, rfl⟩ := h3
    have hinner : (shellLineGo p i ('\\' :: c2 :: rest2) prev sq true).out =
        '\\' :: c2 :: (shellLineGo p i rest2 (some c2) sq true).out := by
      rw [shellLineGo.eq_def]
      simp only [if_neg h1, if_neg h2, and_self, if_true]
    rw [hinner, pyRstrip_cons_of_not_ws (by decide)]
    rcases pyRstrip_cons_cases c2 (shellLineGo p i rest2 (some c2) sq true).out with
      hA | hB
    · rw [hA]
      rw [shellLineGo.eq_def]
      simp [h1, h2]
    · rw [hB]
      have houter : (shellLineGo p i
            ('\\' :: c2 :: pyRstrip (shellLineGo p i rest2 (some c2) sq true).out)
            prev sq true).removed =
          (shellLineGo p i (pyRstrip (shellLineGo p i rest2 (some c2) sq true).out)
            (some c2) sq true).removed := by
        rw [shellLineGo.eq_def]
        simp only [if_neg h1, if_neg h2, and_self, if_true]
      rw [houter]
      exact ih
  | case5 ch prev sq dq h1 h2 h3 =>
    obtain ⟨rfl, rfl⟩ := h3
    have hinner : (shellLineGo p i ['\\'] prev sq true).out = ['\\'] := by
      rw [shellLineGo.eq_def]
      simp only [if_neg h1, if_neg h2, and_self, if_true]
    rw [hinner]
    have hrs : pyRstrip ['\\'] = ['\\'] := by decide
    rw [hrs]
    rw [shellLineGo.eq_def]
    simp only [if_neg h1, if_neg h2, and_self, if_true]
  | case6 ch rest prev sq dq h1 h2 h3 h4 ih =>
    have hinner : (shellLineGo p i (ch :: rest) prev sq dq).out =
        ch :: (shellLineGo p i rest (some ch) sq dq).out := by
      rw [shellLineGo.eq_def]
      simp only [if_neg h1, if_neg h2, if_neg h3, if_pos h4]
    rw [hinner]
    rcases pyRstrip_cons_cases ch (shellLineGo p i rest (some ch) sq dq).out with hA | hB
    · rw [hA]; rfl
    · rw [hB]
      have houter : (shellLineGo p i
            (ch :: pyRstrip (shellLineGo p i rest (some ch) sq dq).out) prev sq dq).removed =
          (shellLineGo p i (pyRstrip (shellLineGo p i rest (some ch) sq dq).out)
            (some ch) sq dq).removed := by
        rw [shellLineGo.eq_def]
        simp only [if_neg h1, if_neg h2, if_neg h3, if_pos h4]
      rw [houter]
      exact ih
  | case7 rest prev sq dq h4 h1 h2 h3 h5 =>
    have hinner : (shellLineGo p i ('#' :: rest) prev sq dq).out = '#' :: rest := by
      rw [shellLineGo.eq_def]
      simp only [if_neg h1, if_neg h2, if_neg h3, if_neg h4, if_pos rfl, if_true, if_pos h5]
    rw [hinner, pyRstrip_cons_of_not_ws (by decide)]
    rw [shellLineGo.eq_def]
    simp only [if_neg h1, if_neg h2, if_neg h3, if_neg h4, if_pos rfl, if_true,
      should_preserve_rstrip, if_pos h5]
  | case8 rest prev sq dq h4 h1 h2 h3 h5 =>
    have hinner : (shellLineGo p i ('#' :: rest) prev sq dq).out = [] := by
      rw [shellLineGo.eq_def]
      simp only [if_neg h1, if_neg h2, if_neg h3, if_neg h4, if_pos rfl, if_true, if_neg h5]
    rw [hinner]
    rfl
  | case9 ch rest prev sq dq h1 h2 h3 h4 h5 ih =>
    have hinner : (shellLineGo p i (ch :: rest) prev sq dq).out =
        ch :: (shellLineGo p i rest (some ch) sq dq).out := by
      rw [shellLineGo.eq_def]
      simp only [if_neg h1, if_neg h2, if_neg h3, if_neg h4, if_neg h5]
    rw [hinner]
    rcases pyRstrip_cons_cases ch (shellLineGo p i rest (some ch) sq dq).out with hA | hB
    · rw [hA]; rfl
    · rw [hB]
      have houter : (shellLineGo p i
            (ch :: pyRstrip (shellLineGo p i rest (some ch) sq dq).out) prev sq dq).removed =
          (shellLineGo p i (pyRstrip (shellLineGo p i rest (some ch) sq dq).out)
            (some ch) sq dq).removed := by
        rw [shellLineGo.eq_def]
        simp only [if_neg h1, if_neg h2, if_neg h3, if_neg h4, if_neg h5]
      rw [houter]
      exact ih

/-- Rescanning the cleaned lines of a shell scan removes nothing. -/
theorem shellLinesGo_idem (p : Bool) :
    ∀ (L : List (List Char)) (i : Nat),
      (shellLinesGo p i (shellLinesGo p i L).lines).removed = 0 := by
  intro L
  induction L with
  | nil => intro i; rfl
  | cons l ls ih =>
    intro i
    simp only [shellLinesGo]
    rw [shellLine_rstrip_removed p i l none false false, ih (i + 1)]

/-- The shell scanner is idempotent: rescanning cleaned text removes
nothing. -/
theorem shell_idem (p : Bool) (content : List Char) :
    (remove_comments_from_shell p (remove_comments_from_shell p content).1).2 = 0 := by
  have hnl := shellLinesGo_no_newline p (pySplit content) (pySplit_no_newline content) 0
  have hne : (shellLinesGo p 0 (pySplit content)).lines ≠ [] := by
    intro h0
    have hlen := shellLinesGo_length p (pySplit content) 0
    rw [h0] at hlen
    exact pySplit_ne_nil content (List.length_eq_zero.mp hlen.symm)
  have hsplit : pySplit (pyJoin (shellLinesGo p 0 (pySplit content)).lines) =
      (shellLinesGo p 0 (pySplit content)).lines :=
    pySplit_pyJoin _ hnl hne
  show (shellLinesGo p 0
    (pySplit (pyJoin (shellLinesGo p 0 (pySplit content)).lines))).removed = 0
  rw [hsplit]
  exact shellLinesGo_idem p (pySplit content) 0

/-- All five flags false forces the initial state. -/
theorem cstate_allFalse (s : CState) (h1 : s.inSingle = false) (h2 : s.inDouble = false)
    (h3 : s.inBacktick = false) (h4 : s.inLineComment = false)
    (h5 : s.inBlockComment = false) : s = stInit := by
  obtain ⟨a, b, c, d, e⟩ := s
  simp only at h1 h2 h3 h4 h5
  subst h1; subst h2; subst h3; subst h4; subst h5
  rfl

/-- Single-quote mode: an escape pair is copied. -/
theorem cstep_sq_pair (s : CState) (hlc : s.inLineComment = false)
    (hbc : s.inBlockComment = false) (hsq : s.inSingle = true) (c2 : Char) (X : List Char) :
    (cGo s ('\\' :: c2 :: X)).out = '\\' :: c2 :: (cGo s X).out ∧
    (cGo s ('\\' :: c2 :: X)).removed = (cGo s X).removed := by
  constructor <;> simp [cGo, hlc, hbc, hsq]

/-- Single-quote mode: the closing quote is copied and the mode exits. -/
theorem cstep_sq_close (s : CState) (hlc : s.inLineComment = false)
    (hbc : s.inBlockComment = false) (hsq : s.inSingle = true) (X : List Char) :
    (cGo s ('\'' :: X)).out = '\'' :: (cGo { s with inSingle := false } X).out ∧
    (cGo s ('\'' :: X)).removed = (cGo { s with inSingle := false } X).removed := by
  cases X with
  | nil => constructor <;> simp [cGo, hlc, hbc, hsq]
  | cons d t => constructor <;> simp [cGo, hlc, hbc, hsq]

/-- Single-quote mode: any other character is copied. -/
theorem cstep_sq_copy (s : CState) (hlc : s.inLineComment = false)
    (hbc : s.inBlockComment = false) (hsq : s.inSingle = true) (ch : Char) (X : List Char)
    (h1 : ch ≠ '\\') (h2 : ch ≠ '\'') :
    (cGo s (ch :: X)).out = ch :: (cGo s X).out ∧
    (cGo s (ch :: X)).removed = (cGo s X).removed := by
  cases X with
  | nil => constructor <;> simp [cGo, hlc, hbc, hsq]
  | cons d t => constructor <;> simp [cGo, hlc, hbc, hsq, h1, h2]

/-- Double-quote mode: an escape pair is copied. -/
theorem cstep_dq_pair (s : CState) (hlc : s.inLineComment = false)
    (hbc : s.inBlockComment = false) (hsq : s.inSingle = false) (hdq : s.inDouble = true)
    (c2 : Char) (X : List Char) :
    (cGo s ('\\' :: c2 :: X)).out = '\\' :: c2 :: (cGo s X).out ∧
    (cGo s ('\\' :: c2 :: X)).removed = (cGo s X).removed := by
  constructor <;> simp [cGo, hlc, hbc, hsq, hdq]

/-- Double-quote mode: the closing quote is copied and the mode exits. -/
theorem cstep_dq_close (s : CState) (hlc : s.inLineComment = false)
    (hbc : s.inBlockComment = false) (hsq : s.inSingle = false) (hdq : s.inDouble = true)
    (X : List Char) :
    (cGo s ('"' :: X)).out = '"' :: (cGo { s with inDouble := false } X).out ∧
    (cGo s ('"' :: X)).removed = (cGo { s with inDouble := false } X).removed := by
  cases X with
  | nil => constructor <;> simp [cGo, hlc, hbc, hsq, hdq]
  | cons d t => constructor <;> simp [cGo, hlc, hbc, hsq, hdq]

/-- Double-quote mode: any other character is copied. -/
theorem cstep_dq_copy (s : CState) (hlc : s.inLineComment = false)
    (hbc : s.inBlockComment = false) (hsq : s.inSingle = false) (hdq : s.inDouble = true)
    (ch : Char) (X : List Char) (h1 : ch ≠ '\\') (h2 : ch ≠ '"') :
    (cGo s (ch :: X)).out = ch :: (cGo s X).out ∧
    (cGo s (ch :: X)).removed = (cGo s X).removed := by
  cases X with
  | nil => constructor <;> simp [cGo, hlc, hbc, hsq, hdq]
  | cons d t => constructor <;> simp [cGo, hlc, hbc, hsq, hdq, h1, h2]

/-- Backtick mode: an escaped backtick is copied. -/
theorem cstep_bt_pair (s : CState) (hlc : s.inLineComment = false)
    (hbc : s.inBlockComment = false) (hsq : s.inSingle = false) (hdq : s.inDouble = false)
    (hbt : s.inBacktick = true) (X : List Char) :
    (cGo s ('\\' :: backquote :: X)).out = '\\' :: backquote :: (cGo s X).out ∧
    (cGo s ('\\' :: backquote :: X)).removed = (cGo s X).removed := by
  constructor <;> simp [cGo, hlc, hbc, hsq, hdq, hbt]

/-- Backtick mode: the closing backtick is copied and the mode exits. -/
theorem cstep_bt_close (s : CState) (hlc : s.inLineComment = false)
    (hbc : s.inBlockComment = false) (hsq : s.inSingle = false) (hdq : s.inDouble = false)
    (hbt : s.inBacktick = true) (X : List Char) :
    (cGo s (backquote :: X)).out = backquote :: (cGo { s with inBacktick := false } X).out ∧
    (cGo s (backquote :: X)).removed = (cGo { s with inBacktick := false } X).removed := by
  cases X with
  | nil => constructor <;> simp [cGo, hlc, hbc, hsq, hdq, hbt]
  | cons d t =>
    constructor <;> simp [cGo, hlc, hbc, hsq, hdq, hbt, show backquote ≠ '\\' by decide]

/-- Backtick mode: any other character is copied. -/
theorem cstep_bt_copy (s : CState) (hlc : s.inLineComment = false)
    (hbc : s.inBlockComment = false) (hsq : s.inSingle = false) (hdq : s.inDouble = false)
    (hbt : s.inBacktick = true) (ch : Char) (X : List Char) (h1 : ch ≠ backquote)
    (h2 : ¬(ch = '\\' ∧ X.head? = some backquote)) :
    (cGo s (ch :: X)).out = ch :: (cGo s X).out ∧
    (cGo s (ch :: X)).removed = (cGo s X).removed := by
  cases X with
  | nil => constructor <;> simp [cGo, hlc, hbc, hsq, hdq, hbt]
  | cons d t =>
    have h3 : ¬(ch = '\\' ∧ d = backquote) := by simpa using h2
    constructor <;> simp [cGo, hlc, hbc, hsq, hdq, hbt, h1, h3]

/-- Normal mode: `//` opens a line comment. -/
theorem cstep_n_lc (X : List Char) :
    (cGo stInit ('/' :: '/' :: X)).out = (cGo stLC X).out ∧
    (cGo stInit ('/' :: '/' :: X)).removed = (cGo stLC X).removed + 1 := by
  constructor <;> simp [cGo, stInit, stLC]

/-- Normal mode: `/*` opens a block comment. -/
theorem cstep_n_bc (X : List Char) :
    (cGo stInit ('/' :: '*' :: X)).out = (cGo stBC X).out ∧
    (cGo stInit ('/' :: '*' :: X)).removed = (cGo stBC X).removed + 1 := by
  constructor <;> simp [cGo, stInit, stBC]

/-- Normal mode: a `/` not followed by `/` or `*` is copied. -/
theorem cstep_n_slash (c2 : Char) (X : List Char) (h1 : c2 ≠ '/') (h2 : c2 ≠ '*') :
    (cGo stInit ('/' :: c2 :: X)).out = '/' :: (cGo stInit (c2 :: X)).out ∧
    (cGo stInit ('/' :: c2 :: X)).removed = (cGo stInit (c2 :: X)).removed := by
  constructor <;> simp [cGo, stInit, h1, h2, show ('/' : Char) ≠ backquote by decide]

/-- Normal mode: a character that opens nothing is copied. -/
theorem cstep_n_copy (ch : Char) (X : List Char) (h0 : ch ≠ '/') (h1 : ch ≠ '\'')
    (h2 : ch ≠ '"') (h3 : ch ≠ backquote) :
    (cGo stInit (ch :: X)).out = ch :: (cGo stInit X).out ∧
    (cGo stInit (ch :: X)).removed = (cGo stInit X).removed := by
  cases X with
  | nil => constructor <;> simp [cGo, stInit]
  | cons d t => constructor <;> simp [cGo, stInit, h0, h1, h2, h3]

/-- In normal mode a head other than `/` is emitted first. -/
theorem cGo_normal_head (d : Char) (r : List Char) (hd : d ≠ '/') :
    ∃ t, (cGo stInit (d :: r)).out = d :: t := by
  by_cases h1 : d = '\''
  · subst h1; exact ⟨_, (cGo_open_sq r).1⟩
  · by_cases h2 : d = '"'
    · subst h2; exact ⟨_, (cGo_open_dq r).1⟩
    · by_cases h3 : d = backquote
      · subst h3; exact ⟨_, (cGo_open_bt r).1⟩
      · exact ⟨_, (cstep_n_copy d r hd h1 h2 h3).1⟩

/-- In backtick mode every head character is emitted first. -/
theorem cGo_bt_head (s : CState) (hlc : s.inLineComment = false)
    (hbc : s.inBlockComment = false) (hsq : s.inSingle = false) (hdq : s.inDouble = false)
    (hbt : s.inBacktick = true) (d : Char) (r : List Char) :
    ∃ t, (cGo s (d :: r)).out = d :: t := by
  by_cases h1 : d = '\\'
  · subst h1
    cases r with
    | nil => exact ⟨_, (cstep_bt_copy s hlc hbc hsq hdq hbt '\\' [] (by decide)
        (by simp)).1⟩
    | cons e t2 =>
      by_cases h2 : e = backquote
      · subst h2; exact ⟨_, (cstep_bt_pair s hlc hbc hsq hdq hbt t2).1⟩
      · exact ⟨_, (cstep_bt_copy s hlc hbc hsq hdq hbt '\\' (e :: t2) (by decide)
          (by simp [h2])).1⟩
  · by_cases h2 : d = backquote
    · subst h2; exact ⟨_, (cstep_bt_close s hlc hbc hsq hdq hbt r).1⟩
    · exact ⟨_, (cstep_bt_copy s hlc hbc hsq hdq hbt d r h2 (fun hc => h1 hc.1)).1⟩

/-- Rescanning the output of a C-family scan from the same non-comment
start state reproduces it exactly and removes nothing. -/
theorem cGo_idem_aux : ∀ (n : Nat) (l : List Char) (s : CState), l.length ≤ n →
    s.inLineComment = false → s.inBlockComment = false →
    (cGo s (cGo s l).out).out = (cGo s l).out ∧ (cGo s (cGo s l).out).removed = 0 := by
  intro n
  induction n with
  | zero =>
    intro l s hl _ _
    have h0 : l = [] := List.length_eq_zero.mp (Nat.le_zero.mp hl)
    subst h0
    exact ⟨rfl, rfl⟩
  | succ n ih =>
    intro l s hl hlc hbc
    cases l with
    | nil => exact ⟨rfl, rfl⟩
    | cons ch rest =>
      cases rest with
      | nil =>
        have hout : (cGo s [ch]).out = [ch] := by simp [cGo, hlc, hbc]
        have hrem : (cGo s [ch]).removed = 0 := by simp [cGo, hlc, hbc]
        rw [hout]
        exact ⟨hout, hrem⟩
      | cons c2 rest2 =>
        have hlen2 : rest2.length ≤ n := by
          simp only [List.length_cons] at hl; omega
        have hlen1 : (c2 :: rest2).length ≤ n := by
          simp only [List.length_cons] at hl ⊢; omega
        by_cases hsq : s.inSingle = true
        · by_cases hch1 : ch = '\\'
          · subst hch1
            have hstep := cstep_sq_pair s hlc hbc hsq c2 rest2
            have hstep2 := cstep_sq_pair s hlc hbc hsq c2 (cGo s rest2).out
            have ihr := ih rest2 s hlen2 hlc hbc
            constructor
            · rw [hstep.1, hstep2.1, ihr.1]
            · rw [hstep.1, hstep2.2, ihr.2]
          · by_cases hch2 : ch = '\''
            · subst hch2
              have hstep := cstep_sq_close s hlc hbc hsq (c2 :: rest2)
              have hstep2 := cstep_sq_close s hlc hbc hsq
                (cGo { s with inSingle := false } (c2 :: rest2)).out
              have hlc2 : ({ s with inSingle := false } : CState).inLineComment = false := hlc
              have hbc2 : ({ s with inSingle := false } : CState).inBlockComment = false := hbc
              have ihr := ih (c2 :: rest2) { s with inSingle := false } hlen1 hlc2 hbc2
              constructor
              · rw [hstep.1, hstep2.1, ihr.1]
              · rw [hstep.1, hstep2.2, ihr.2]
            · have hstep := cstep_sq_copy s hlc hbc hsq ch (c2 :: rest2) hch1 hch2
              have hstep2 := cstep_sq_copy s hlc hbc hsq ch
                (cGo s (c2 :: rest2)).out hch1 hch2
              have ihr := ih (c2 :: rest2) s hlen1 hlc hbc
              constructor
              · rw [hstep.1, hstep2.1, ihr.1]
              · rw [hstep.1, hstep2.2, ihr.2]
        · have hsq' : s.inSingle = false := by simpa using hsq
          by_cases hdq : s.inDouble = true
          · by_cases hch1 : ch = '\\'
            · subst hch1
              have hstep := cstep_dq_pair s hlc hbc hsq' hdq c2 rest2
              have hstep2 := cstep_dq_pair s hlc hbc hsq' hdq c2 (cGo s rest2).out
              have ihr := ih rest2 s hlen2 hlc hbc
              constructor
              · rw [hstep.1, hstep2.1, ihr.1]
              · rw [hstep.1, hstep2.2, ihr.2]
            · by_cases hch2 : ch = '"'
              · subst hch2
                have hstep := cstep_dq_close s hlc hbc hsq' hdq (c2 :: rest2)
                have hstep2 := cstep_dq_close s hlc hbc hsq' hdq
                  (cGo { s with inDouble := false } (c2 :: rest2)).out
                have hlc2 : ({ s with inDouble := false } : CState).inLineComment = false := hlc
                have hbc2 : ({ s with inDouble := false } : CState).inBlockComment = false := hbc
                have ihr := ih (c2 :: rest2) { s with inDouble := false } hlen1 hlc2 hbc2
                constructor
                · rw [hstep.1, hstep2.1, ihr.1]
                · rw [hstep.1, hstep2.2, ihr.2]
              · have hstep := cstep_dq_copy s hlc hbc hsq' hdq ch (c2 :: rest2) hch1 hch2
                have hstep2 := cstep_dq_copy s hlc hbc hsq' hdq ch
                  (cGo s (c2 :: rest2)).out hch1 hch2
                have ihr := ih (c2 :: rest2) s hlen1 hlc hbc
                constructor
                · rw [hstep.1, hstep2.1, ihr.1]
                · rw [hstep.1, hstep2.2, ihr.2]
          · have hdq' : s.inDouble = false := by simpa using hdq
            by_cases hbt : s.inBacktick = true
            · by_cases hpair : ch = '\\' ∧ c2 = backquote
              · obtain ⟨rfl, rfl⟩ := hpair
                have hstep := cstep_bt_pair s hlc hbc hsq' hdq' hbt rest2
                have hstep2 := cstep_bt_pair s hlc hbc hsq' hdq' hbt (cGo s rest2).out
                have ihr := ih rest2 s hlen2 hlc hbc
                constructor
                · rw [hstep.1, hstep2.1, ihr.1]
                · rw [hstep.1, hstep2.2, ihr.2]
              · by_cases hch2 : ch = backquote
                · subst hch2
                  have hstep := cstep_bt_close s hlc hbc hsq' hdq' hbt (c2 :: rest2)
                  have hstep2 := cstep_bt_close s hlc hbc hsq' hdq' hbt
                    (cGo { s with inBacktick := false } (c2 :: rest2)).out
                  have hlc2 : ({ s with inBacktick := false } : CState).inLineComment = false :=
                    hlc
                  have hbc2 : ({ s with inBacktick := false } : CState).inBlockComment = false :=
                    hbc
                  have ihr := ih (c2 :: rest2) { s with inBacktick := false } hlen1 hlc2 hbc2
                  constructor
                  · rw [hstep.1, hstep2.1, ihr.1]
                  · rw [hstep.1, hstep2.2, ihr.2]
                · by_cases hch1 : ch = '\\'
                  · subst hch1
                    have hc2 : c2 ≠ backquote := fun h => hpair ⟨rfl, h⟩
                    obtain ⟨t, ht⟩ := cGo_bt_head s hlc hbc hsq' hdq' hbt c2 rest2
                    have hstep := cstep_bt_copy s hlc hbc hsq' hdq' hbt '\\' (c2 :: rest2)
                      (by decide) (by simpa using hpair)
                    have hstep2 := cstep_bt_copy s hlc hbc hsq' hdq' hbt '\\'
                      (cGo s (c2 :: rest2)).out (by decide) (by rw [ht]; simp [hc2])
                    have ihr := ih (c2 :: rest2) s hlen1 hlc hbc
                    constructor
                    · rw [hstep.1, hstep2.1, ihr.1]
                    · rw [hstep.1, hstep2.2, ihr.2]
                  · have hstep := cstep_bt_copy s hlc hbc hsq' hdq' hbt ch (c2 :: rest2)
                      hch2 (fun hc => hch1 hc.1)
                    have hstep2 := cstep_bt_copy s hlc hbc hsq' hdq' hbt ch
                      (cGo s (c2 :: rest2)).out hch2 (fun hc => hch1 hc.1)
                    have ihr := ih (c2 :: rest2) s hlen1 hlc hbc
                    constructor
                    · rw [hstep.1, hstep2.1, ihr.1]
                    · rw [hstep.1, hstep2.2, ihr.2]
            · have hbt' : s.inBacktick = false := by simpa using hbt
              have hs := cstate_allFalse s hsq' hdq' hbt' hlc hbc
              subst hs
              by_cases hcc : ch = '/' ∧ c2 = '/'
              · obtain ⟨rfl, rfl⟩ := hcc
                have hstep := cstep_n_lc rest2
                have hlcr := cGo_lc rest2
                cases hA : afterLine rest2 with
                | none =>
                  rw [hA] at hlcr
                  have ho : (cGo stLC rest2).out = [] := congrArg Prod.fst hlcr
                  constructor
                  · rw [hstep.1, ho]; rfl
                  · rw [hstep.1, ho]; rfl
                | some b =>
                  rw [hA] at hlcr
                  have ho : (cGo stLC rest2).out = '\n' :: (cGo stInit b).out :=
                    congrArg Prod.fst hlcr
                  have hblen : b.length ≤ n := by
                    have := afterLine_some_length rest2 b hA
                    omega
                  have ihb := ih b stInit hblen rfl rfl
                  cases hY : (cGo stInit b).out with
                  | nil =>
                    constructor
                    · rw [hstep.1, ho, hY]
                      simp [cGo, stInit]
                    · rw [hstep.1, ho, hY]
                      simp [cGo, stInit]
                  | cons d t =>
                    have hcopy := cstep_n_copy '\n' (d :: t) (by decide) (by decide)
                      (by decide) (by decide)
                    constructor
                    · rw [hstep.1, ho, hY, hcopy.1, ← hY, ihb.1]
                    · rw [hstep.1, ho, hY, hcopy.2, ← hY, ihb.2]
              · by_cases hcb : ch = '/' ∧ c2 = '*'
                · obtain ⟨rfl, rfl⟩ := hcb
                  have hstep := cstep_n_bc rest2
                  have hbcr := cGo_bc rest2
                  cases hA : dropBlock rest2 with
                  | none =>
                    rw [hA] at hbcr
                    have ho : (cGo stBC rest2).out = [] := congrArg Prod.fst hbcr
                    constructor
                    · rw [hstep.1, ho]; rfl
                    · rw [hstep.1, ho]; rfl
                  | some b =>
                    rw [hA] at hbcr
                    have ho : (cGo stBC rest2).out = (cGo stInit b).out :=
                      congrArg Prod.fst hbcr
                    have hblen : b.length ≤ n := by
                      have := dropBlock_some_length rest2 b hA
                      omega
                    have ihb := ih b stInit hblen rfl rfl
                    constructor
                    · rw [hstep.1, ho, ihb.1]
                    · rw [hstep.1, ho, ihb.2]
                · by_cases hq1 : ch = '\''
                  · subst hq1
                    have hstep := cGo_open_sq (c2 :: rest2)
                    have hstep2 := cGo_open_sq (cGo stSQ (c2 :: rest2)).out
                    have ihr := ih (c2 :: rest2) stSQ hlen1 rfl rfl
                    constructor
                    · rw [hstep.1, hstep2.1, ihr.1]
                    · rw [hstep.1, hstep2.2, ihr.2]
                  · by_cases hq2 : ch = '"'
                    · subst hq2
                      have hstep := cGo_open_dq (c2 :: rest2)
                      have hstep2 := cGo_open_dq (cGo stDQ (c2 :: rest2)).out
                      have ihr := ih (c2 :: rest2) stDQ hlen1 rfl rfl
                      constructor
                      · rw [hstep.1, hstep2.1, ihr.1]
                      · rw [hstep.1, hstep2.2, ihr.2]
                    · by_cases hq3 : ch = backquote
                      · subst hq3
                        have hstep := cGo_open_bt (c2 :: rest2)
                        have hstep2 := cGo_open_bt (cGo stBT (c2 :: rest2)).out
                        have ihr := ih (c2 :: rest2) stBT hlen1 rfl rfl
                        constructor
                        · rw [hstep.1, hstep2.1, ihr.1]
                        · rw [hstep.1, hstep2.2, ihr.2]
                      · by_cases hsl : ch = '/'
                        · subst hsl
                          have hc2s : c2 ≠ '/' := fun h => hcc ⟨rfl, h⟩
                          have hc2b : c2 ≠ '*' := fun h => hcb ⟨rfl, h⟩
                          have hstep := cstep_n_slash c2 rest2 hc2s hc2b
                          obtain ⟨t, ht⟩ := cGo_normal_head c2 rest2 hc2s
                          have hstep2 := cstep_n_slash c2 t hc2s hc2b
                          have ihr := ih (c2 :: rest2) stInit hlen1 rfl rfl
                          constructor
                          · rw [hstep.1, ht, hstep2.1, ← ht, ihr.1]
                          · rw [hstep.1, ht, hstep2.2, ← ht, ihr.2]
                        · have hstep := cstep_n_copy ch (c2 :: rest2) hsl hq1 hq2 hq3
                          have hstep2 := cstep_n_copy ch
                            (cGo stInit (c2 :: rest2)).out hsl hq1 hq2 hq3
                          have ihr := ih (c2 :: rest2) stInit hlen1 rfl rfl
                          constructor
                          · rw [hstep.1, hstep2.1, ihr.1]
                          · rw [hstep.1, hstep2.2, ihr.2]

/-- C5: scanning is idempotent with respect to comment removal: a second
scan of the cleaned text removes zero comments, for every input, both
language families, and both preservation settings. -/
theorem c5_idempotent : ∀ (fam : LanguageFamily) (p : Bool) (content : List Char),
    (scan fam p (scan fam p content).1).2 = 0 := by
  intro fam p content
  cases fam with
  | shell => exact shell_idem p content
  | c_like => exact (cGo_idem_aux content.length content stInit (le_refl _) rfl rfl).2
